import Mathlib

/-!
Verification of the ivalice decision-tree builder (src/ivalice/impl/tree.py).

The source is shallowly embedded: float64 values become exact rationals,
numpy arrays become Lean lists (with explicit bounds-checked writes where the
source could raise an IndexError), the in-place sample permutation becomes a
list threaded through the build, and the `while` loop over the explicit stack
becomes a fuel-indexed recursion.  A build that raises in Python is `none`
here; theorems about completed builds are conditioned on a `some` result.
-/

namespace Ivalice

/-- Sentinel marking an absent child; a node is a leaf iff its left child slot
holds this value (tree.py line 19). -/
def TREE_LEAF : Int := -1

/-- Sentinel for a feature or threshold that was never set (tree.py line 20). -/
def UNDEFINED : Int := -2

/-- The largest positive IEEE-754 double, `np.finfo(np.float64).max`, used by
the source as an effectively infinite impurity (tree.py line 22).  The
literal is the exact integer value `2 ^ 1024 - 2 ^ 971`, written out so that
it evaluates without unary-exponentiation recursion. -/
def DOUBLE_MAX : ℚ := Rat.ofInt 179769313486231570814527423731704356798070567525844996598917476803157260780028538760589558632766878171540458953514382464234321326889464182768467546703537516986049910576551282076245490090389328944075868508455133942304583236903222948165808559332123348274797826204144723168738177180919299881250404026184124858368

def MSE_CRITERION : Nat := 0
def GINI_CRITERION : Nat := 1
def ENTROPY_CRITERION : Nat := 2

/-- Truncation of a rational toward zero, the semantics of Python `int(...)`
and of a numpy float-to-int cast. -/
def ratTrunc (q : ℚ) : Int := q.num / (q.den : Int)

/-- The contiguous range `l[s:e]` of a list, with numpy-slice clamping. -/
def slice (l : List Nat) (s e : Nat) : List Nat := (l.drop s).take (e - s)

/-- Weighted sum of `f` over a list of sample indices. -/
def wsum (f : Nat → ℚ) (l : List Nat) : ℚ := (l.map f).sum

/-- The five statistics the impurity routines report through the shared `out`
buffer: left/right/total weight and the two per-side leaf value estimates. -/
structure Stats where
  N_L : ℚ
  N_R : ℚ
  N_t : ℚ
  value_L : ℚ
  value_R : ℚ
deriving DecidableEq, Repr

/-- `_impurity_mse` (tree.py lines 107-150): weighted MSE impurity of splitting
`samples[start_t:end_t]` at `pos_t`.  On a zero-weight side it returns
`DOUBLE_MAX` and leaves the `out` buffer untouched, exactly as the source's
early `return` does. -/
def _impurity_mse (y w : Nat → ℚ) (samples : List Nat)
    (start_t pos_t end_t : Nat) (out : Stats) : ℚ × Stats :=
  let left := slice samples start_t pos_t
  let N_L := wsum w left
  let y_sqL := wsum (fun i => w i * y i * y i) left
  let y_sumL := wsum (fun i => w i * y i) left
  if N_L = 0 then (DOUBLE_MAX, out) else
  let value_L := y_sumL / N_L
  let imp_L := y_sqL - 1 * y_sumL * y_sumL / N_L
  let right := slice samples pos_t end_t
  let N_R := wsum w right
  let y_sqR := wsum (fun i => w i * y i * y i) right
  let y_sumR := wsum (fun i => w i * y i) right
  if N_R = 0 then (DOUBLE_MAX, out) else
  let value_R := y_sumR / N_R
  let imp_R := y_sqR - 1 * y_sumR * y_sumR / N_R
  let N_t := N_L + N_R
  ((imp_L + imp_R) / N_t, ⟨N_L, N_R, N_t, value_L, value_R⟩)

/-- Weighted count of class `k` (targets truncated to ints, as the source's
`int(y[i])` index) over a list of sample indices. -/
def classCount (y w : Nat → ℚ) (idxs : List Nat) (k : Nat) : ℚ :=
  wsum (fun i => if ratTrunc (y i) = (k : Int) then w i else 0) idxs

/-- The argmax scan of `_compute_counts` (tree.py lines 176-188): majority
class, strict improvement only, so the lowest class code wins exact ties. -/
def majorityClass (n_classes : Nat) (cnt : Nat → ℚ) : ℚ :=
  ((List.range n_classes).foldl
    (fun acc k => if cnt k > acc.1 then (cnt k, (k : ℚ)) else acc)
    (-DOUBLE_MAX, 0)).2

/-- `_compute_counts` (tree.py lines 153-194): per-side weighted class counts
and majority-class leaf estimates for a candidate split. -/
def _compute_counts (n_classes : Nat) (y w : Nat → ℚ) (samples : List Nat)
    (start_t pos_t end_t : Nat) : Stats :=
  let left := slice samples start_t pos_t
  let right := slice samples pos_t end_t
  let N_L := wsum w left
  let N_R := wsum w right
  ⟨N_L, N_R, N_L + N_R, majorityClass n_classes (classCount y w left),
   majorityClass n_classes (classCount y w right)⟩

/-- `_impurity_gini` (tree.py lines 197-221).  Note the source divides each
class proportion by the *total* node weight `N_t` and returns the
unnormalised `N_L * gini_L + N_R * gini_R`; both quirks are kept.  The `out`
buffer is overwritten by `_compute_counts` even on the degenerate early
return, as in the source. -/
def _impurity_gini (n_classes : Nat) (y w : Nat → ℚ) (samples : List Nat)
    (start_t pos_t end_t : Nat) (_out : Stats) : ℚ × Stats :=
  let st := _compute_counts n_classes y w samples start_t pos_t end_t
  if st.N_L = 0 ∧ st.N_R = 0 then (DOUBLE_MAX, st) else
  let left := slice samples start_t pos_t
  let right := slice samples pos_t end_t
  let gini_L := ((List.range n_classes).map (fun k =>
    let p := classCount y w left k / st.N_t
    p * (1 - p))).sum
  let gini_R := ((List.range n_classes).map (fun k =>
    let p := classCount y w right k / st.N_t
    p * (1 - p))).sum
  (st.N_L * gini_L + st.N_R * gini_R, st)

/-- `_impurity_entropy` (tree.py lines 224-251).  The base-2 logarithm of
float64 values is not a rational-arithmetic function; it is injected as the
oracle `log2f`, which is all any theorem below needs. -/
def _impurity_entropy (n_classes : Nat) (log2f : ℚ → ℚ) (y w : Nat → ℚ)
    (samples : List Nat) (start_t pos_t end_t : Nat) (_out : Stats) : ℚ × Stats :=
  let st := _compute_counts n_classes y w samples start_t pos_t end_t
  if st.N_L = 0 ∨ st.N_R = 0 then (DOUBLE_MAX, st) else
  let left := slice samples start_t pos_t
  let right := slice samples pos_t end_t
  let ent_L := ((List.range n_classes).map (fun k =>
    let p := classCount y w left k / st.N_t
    if p > 0 then -(p * log2f p) else 0)).sum
  let ent_R := ((List.range n_classes).map (fun k =>
    let p := classCount y w right k / st.N_t
    if p > 0 then -(p * log2f p) else 0)).sum
  (st.N_L * ent_L + st.N_R * ent_R, st)

/-- The shape of an impurity evaluator over the current sample permutation:
range `[start_t, end_t)`, split position, threaded `out` buffer. -/
def ImpurityFn : Type := List Nat → Nat → Nat → Nat → Stats → ℚ × Stats

/-- The per-build criterion dispatch of `_build_tree`
(tree.py lines 298-306 and 356-364). -/
def impurityOf (criterion n_classes : Nat) (log2f : ℚ → ℚ)
    (y w : Nat → ℚ) : ImpurityFn :=
  if criterion = MSE_CRITERION then _impurity_mse y w
  else if criterion = GINI_CRITERION then _impurity_gini n_classes y w
  else _impurity_entropy n_classes log2f y w

/-- Modelled from the spec: the source imports `heapsort` from the
repository's `sort` module, which is not among the given sources.  Per the
spec it jointly sorts `(featureValue, sampleIndex)` pairs over a range by
value, any comparison sort being an admissible realisation (stability is not
required).  We realise it as an insertion sort of the sample indices keyed by
feature value. -/
def heapsort (key : Nat → ℚ) (l : List Nat) : List Nat :=
  List.insertionSort (fun i1 i2 => key i1 ≤ key i2) l

/-- The in-place `heapsort(Xj[start:end], samples[start:end], size)` of the
source: sort the slice `[s, e)` of the sample permutation by feature value,
leaving everything outside the slice unchanged. -/
def sortRange (key : Nat → ℚ) (l : List Nat) (s e : Nat) : List Nat :=
  l.take s ++ heapsort key (slice l s e) ++ l.drop e

/-- The mutable state of the `_best_split` scan (tree.py lines 258-266),
together with the shared `out` buffer and the sample permutation the source
mutates in place. -/
structure ScanSt where
  best_imp : ℚ
  best_thresh : ℚ
  best_j : Int
  best_pos_t : Int
  N_L : ℚ
  N_R : ℚ
  N_t : ℚ
  value_L : ℚ
  value_R : ℚ
  out : Stats
  samples : List Nat

/-- One iteration of the inner position loop of `_best_split`
(tree.py lines 279-317), at position `pos_t = k + 1` for feature `j`.
`N_L`/`N_R` are overwritten with the plain sample counts at every iterated
position before the admissibility checks, exactly as in the source. -/
def scanPosStep (impF : ImpurityFn) (key : Nat → ℚ) (start_t end_t msl j : Nat)
    (st : ScanSt) (k : Nat) : ScanSt :=
  let pos_t := k + 1
  let nl := pos_t - start_t
  let nr := (end_t - start_t) - nl
  let st := { st with N_L := (nl : ℚ), N_R := (nr : ℚ) }
  if nr < msl ∨ nl < msl then st
  else
    let vk := key (st.samples.getD k 0)
    let vk1 := key (st.samples.getD (k + 1) 0)
    let Xj_diff := vk1 - vk
    if Xj_diff = 0 then st
    else
      let thresh := Xj_diff / 2 + vk
      let r := impF st.samples start_t pos_t end_t st.out
      let st := { st with out := r.2 }
      if r.1 < st.best_imp then
        { st with best_imp := r.1, best_thresh := thresh, best_j := (j : Int),
                  best_pos_t := (pos_t : Int),
                  N_L := st.out.N_L, N_R := st.out.N_R, N_t := st.out.N_t,
                  value_L := st.out.value_L, value_R := st.out.value_R }
      else st

/-- The body of `for j in features` in `_best_split` (tree.py lines 270-317):
re-sort the node's slice of the sample permutation by feature `j`, then scan
all interior split positions. -/
def scanFeature (impF : ImpurityFn) (X : Nat → Nat → ℚ) (start_t end_t msl : Nat)
    (st : ScanSt) (j : Nat) : ScanSt :=
  let key := fun i => X i j
  let st := { st with samples := sortRange key st.samples start_t end_t }
  (List.range' start_t (end_t - 1 - start_t)).foldl
    (scanPosStep impF key start_t end_t msl j) st

/-- The whole feature/position scan of `_best_split`, from the initial state
of tree.py lines 258-266. -/
def scanAll (impF : ImpurityFn) (X : Nat → Nat → ℚ) (samples feats : List Nat)
    (start_t end_t msl : Nat) : ScanSt :=
  feats.foldl (scanFeature impF X start_t end_t msl)
    { best_imp := DOUBLE_MAX, best_thresh := 0, best_j := -1, best_pos_t := -1,
      N_L := 0, N_R := 0, N_t := 0, value_L := 0, value_R := 0,
      out := ⟨0, 0, 0, 0, 0⟩, samples := samples }

/-- The eight `out` slots `_best_split` reports back to `_build_tree`
(tree.py lines 319-326). -/
structure SplitOut where
  N_L : ℚ
  N_R : ℚ
  N_t : ℚ
  value_L : ℚ
  value_R : ℚ
  best_thresh : ℚ
  best_j : Int
  best_pos_t : Int

/-- `_best_split` (tree.py lines 254-333): run the scan, then, if a split was
found, re-sort the node's slice by the winning feature to commit the physical
partition (lines 328-333).  Returns the updated sample permutation alongside
the scan result. -/
def _best_split (impF : ImpurityFn) (X : Nat → Nat → ℚ) (samples feats : List Nat)
    (start_t end_t msl : Nat) : List Nat × SplitOut :=
  let st := scanAll impF X samples feats start_t end_t msl
  let samplesF := if st.best_j = -1 then st.samples
    else sortRange (fun i => X i st.best_j.toNat) st.samples start_t end_t
  (samplesF,
   ⟨st.N_L, st.N_R, st.N_t, st.value_L, st.value_R,
    st.best_thresh, st.best_j, st.best_pos_t⟩)

/-- `_Tree` (tree.py lines 29-55): five capacity-sized parallel arrays and a
write pointer. -/
structure TreeSt where
  capacity : Nat
  threshold : List ℚ
  feature : List Int
  children_left : List Int
  children_right : List Int
  value : List ℚ
  ptr : Nat
deriving DecidableEq, Repr

/-- `_Tree.__init__` with the given capacity (the source default is `2 ** 10`).
`np.zeros(c) + UNDEFINED` fills with `-2`, the child arrays with `TREE_LEAF`. -/
def treeInit (capacity : Nat) : TreeSt :=
  ⟨capacity, List.replicate capacity ((-2 : Int) : ℚ),
   List.replicate capacity UNDEFINED,
   List.replicate capacity TREE_LEAF, List.replicate capacity TREE_LEAF,
   List.replicate capacity 0, 0⟩

/-- `_Tree.add_node` (tree.py lines 40-44).  The source has no capacity guard;
numpy raises an `IndexError` on an out-of-bounds store, which is `none` here. -/
def TreeSt.add_node (t : TreeSt) (threshold : ℚ) (feature : Int) (value : ℚ) :
    Option TreeSt :=
  if t.ptr < t.capacity then
    some { t with threshold := t.threshold.set t.ptr threshold,
                  feature := t.feature.set t.ptr feature,
                  value := t.value.set t.ptr value,
                  ptr := t.ptr + 1 }
  else none

/-- `_Tree.add_terminal_node` (tree.py lines 46-48): only the value cell is
written; feature and children keep their sentinels. -/
def TreeSt.add_terminal_node (t : TreeSt) (value : ℚ) : Option TreeSt :=
  if t.ptr < t.capacity then
    some { t with value := t.value.set t.ptr value, ptr := t.ptr + 1 }
  else none

/-- The child-pointer patch `tree.children_left[parent] = node_t` /
`children_right` (tree.py lines 370-375), bounds-checked as numpy is. -/
def TreeSt.setChild (t : TreeSt) (left : Bool) (parent : Nat) (child : Int) :
    Option TreeSt :=
  if parent < t.capacity then
    some (if left then { t with children_left := t.children_left.set parent child }
          else { t with children_right := t.children_right.set parent child })
  else none

/-- `_Tree.finalize` (tree.py lines 50-55): each array is sliced to
`[:ptr + 1]` (with numpy clamping at the array length). -/
def TreeSt.finalize (t : TreeSt) : TreeSt :=
  { t with threshold := t.threshold.take (t.ptr + 1),
           feature := t.feature.take (t.ptr + 1),
           value := t.value.take (t.ptr + 1),
           children_left := t.children_left.take (t.ptr + 1),
           children_right := t.children_right.take (t.ptr + 1) }

/-- One pending-node descriptor of the `_Stack` (tree.py lines 58-91). -/
structure Entry where
  start : Nat
  end_ : Nat
  left : Bool
  depth : Nat
  n_samples : ℚ
  parent : Nat
  value : ℚ

/-- The `_Stack` default capacity `2 ** 10` (tree.py line 60). -/
def STACK_CAPACITY : Nat := 2 ^ 10

/-- `_Stack.push` (tree.py lines 71-82).  The stored arrays are fixed at
`STACK_CAPACITY`; a push onto a full stack raises (the source's own `>=` guard
is off by one, but the numpy store at index `capacity` raises first), which is
`none` here. -/
def pushEntry (stack : List Entry) (E : Entry) : Option (List Entry) :=
  if STACK_CAPACITY ≤ stack.length then none else some (E :: stack)

/-- The build inputs of `_build_tree` (tree.py lines 336-338).  The feature
matrix and the target/weight vectors are total functions read only at row
indices below `n_samples`. -/
structure BuildParams where
  n_samples : Nat
  n_features : Nat
  X : Nat → Nat → ℚ
  y : Nat → ℚ
  sample_weight : Nat → ℚ
  max_features : Nat
  max_depth : Option Nat
  min_samples_split : Nat
  min_samples_leaf : Nat

/-- The loop state of `_build_tree`: the sample permutation, the feature
candidate array (shuffled in place across nodes), the injected random source,
the node store, the stack and the node counter.  `leaves` and `splits` record,
for each terminal (resp. internal) node added, its id and the sample range
`[start, end)` (resp. and split position) it was popped with; they are ghost
observations of values the source manifestly has in scope at those points and
do not influence the build. -/
structure BuildState (ρ : Type) where
  samples : List Nat
  features : List Nat
  rng : ρ
  tree : TreeSt
  stack : List Entry
  node_t : Nat
  leaves : List (Nat × Nat × Nat)
  splits : List (Nat × Nat × Nat × Nat)

/-- One iteration of the `while len(stack) > 0` loop of `_build_tree`
(tree.py lines 366-411).  `.inr` is the loop exiting with the final state,
`.inl` the next state, `none` a raised exception. -/
def buildStep {ρ : Type} (shuffle : ρ → List Nat → List Nat × ρ)
    (impF : ImpurityFn) (pr : BuildParams) (st : BuildState ρ) :
    Option (BuildState ρ ⊕ BuildState ρ) :=
  match st.stack with
  | [] => some (.inr st)
  | E :: rest =>
    let patched : Option TreeSt :=
      if 0 < st.node_t then st.tree.setChild E.left E.parent (st.node_t : Int)
      else some st.tree
    match patched with
    | none => none
    | some t1 =>
      let size_t := E.end_ - E.start
      if some E.depth = pr.max_depth ∨ size_t < pr.min_samples_split then
        match t1.add_terminal_node E.value with
        | none => none
        | some t2 =>
          some (.inl
            { st with
              tree := t2
              stack := rest
              node_t := st.node_t + 1
              leaves := (st.node_t, E.start, E.end_) :: st.leaves })
      else
        let fr := if pr.max_features ≠ pr.n_features
          then shuffle st.rng st.features else (st.features, st.rng)
        let bs := _best_split impF pr.X st.samples (fr.1.take pr.max_features)
                    E.start E.end_ pr.min_samples_leaf
        let r := bs.2
        if r.best_j = -1 then
          match t1.add_terminal_node E.value with
          | none => none
          | some t2 =>
            some (.inl
              { st with
                samples := bs.1
                features := fr.1
                rng := fr.2
                tree := t2
                stack := rest
                node_t := st.node_t + 1
                leaves := (st.node_t, E.start, E.end_) :: st.leaves })
        else
          match t1.add_node r.best_thresh r.best_j E.value with
          | none => none
          | some t2 =>
            let pos := r.best_pos_t.toNat
            let eL : Entry :=
              ⟨E.start, pos, true, E.depth + 1, r.N_L, st.node_t, r.value_L⟩
            let eR : Entry :=
              ⟨pos, E.end_, false, E.depth + 1, r.N_R, st.node_t, r.value_R⟩
            match pushEntry rest eL with
            | none => none
            | some s1 =>
              match pushEntry s1 eR with
              | none => none
              | some s2 =>
                some (.inl
                  { st with
                    samples := bs.1
                    features := fr.1
                    rng := fr.2
                    tree := t2
                    stack := s2
                    node_t := st.node_t + 1
                    splits := (st.node_t, E.start, pos, E.end_) :: st.splits })

/-- The `while` loop of `_build_tree`, fuel-indexed.  The fuel passed by
`_build_tree` dominates the loop's iteration count, so running out of fuel
never models a terminating Python run. -/
def buildLoop {ρ : Type} (shuffle : ρ → List Nat → List Nat × ρ)
    (impF : ImpurityFn) (pr : BuildParams) :
    Nat → BuildState ρ → Option (BuildState ρ)
  | 0, _ => none
  | fuel + 1, st =>
    match buildStep shuffle impF pr st with
    | none => none
    | some (.inr stF) => some stF
    | some (.inl st1) => buildLoop shuffle impF pr fuel st1

/-- `samples = samples[sample_weight > 0]` (tree.py lines 343-344): the row
indices that enter the build, in order. -/
def initSamples (n : Nat) (w : Nat → ℚ) : List Nat :=
  (List.range n).filter (fun i => 0 < w i)

/-- `np.sum(sample_weight)` over all rows (tree.py line 349). -/
def totalWeight (n : Nat) (w : Nat → ℚ) : ℚ := ((List.range n).map w).sum

/-- Modelled from the spec: the source derives the class count from sklearn's
`LabelEncoder`, an external collaborator the spec keeps outside the core; on
the pre-encoded dense codes `0..K-1` the spec promises, the encoder is the
identity and the class count is one more than the largest code. -/
def numClasses (n : Nat) (y : Nat → ℚ) : Nat :=
  ((List.range n).map (fun i => (ratTrunc (y i)).toNat)).foldl max 0 + 1

/-- The finalized build output: the five persisted parallel arrays
(tree.py lines 50-55 and 413-417) plus ghost observations (exact node count,
final sample permutation, per-leaf and per-split ranges). -/
structure BuildResult where
  threshold : List ℚ
  feature : List Int
  children_left : List Int
  children_right : List Int
  value : List ℚ
  node_count : Nat
  samples : List Nat
  leaves : List (Nat × Nat × Nat)
  splits : List (Nat × Nat × Nat × Nat)
deriving DecidableEq, Repr

/-- The initial loop state of `_build_tree` (tree.py lines 341-350): the
positive-weight sample permutation, the identity feature order, an empty
node store, and the stack holding the root entry covering the full range
with depth 0, the total weight, and value 0. -/
def initState {ρ : Type} (rng0 : ρ) (pr : BuildParams) : BuildState ρ :=
  { samples := initSamples pr.n_samples pr.sample_weight,
    features := List.range pr.n_features, rng := rng0,
    tree := treeInit (2 ^ 10),
    stack := [⟨0, (initSamples pr.n_samples pr.sample_weight).length, false, 0,
      totalWeight pr.n_samples pr.sample_weight, 0, 0⟩],
    node_t := 0, leaves := [], splits := [] }

/-- `_build_tree` (tree.py lines 336-417).  The injected random source is the
pair of a state `rng0 : ρ` and the in-place `shuffle`; `log2f` is the float
base-2 logarithm oracle used only by the entropy criterion.  For
classification, the external label encoding round-trip is modelled from the
spec as the identity on dense codes; the final `astype(np.int32)` truncation
is kept. -/
def _build_tree {ρ : Type} (shuffle : ρ → List Nat → List Nat × ρ) (rng0 : ρ)
    (log2f : ℚ → ℚ) (criterion : Nat) (pr : BuildParams) : Option BuildResult :=
  let impF := impurityOf criterion (numClasses pr.n_samples pr.y) log2f
    pr.y pr.sample_weight
  match buildLoop shuffle impF pr
      (2 * (initSamples pr.n_samples pr.sample_weight).length + 2)
      (initState rng0 pr) with
  | none => none
  | some stF =>
    let t := stF.tree.finalize
    let vals := if GINI_CRITERION ≤ criterion
      then t.value.map (fun q => ((ratTrunc q : Int) : ℚ)) else t.value
    some ⟨t.threshold, t.feature, t.children_left, t.children_right, vals,
          stF.tree.ptr, stF.samples, stF.leaves, stF.splits⟩

/-- The descent of `_apply` (tree.py lines 94-104) from node `node`, fuel
indexed; array reads are bounds-checked as the numpy reads are. -/
def applyFrom (feature : List Int) (threshold : List ℚ)
    (cl cr : List Int) (x : Nat → ℚ) : Nat → Nat → Option Nat
  | 0, _ => none
  | fuel + 1, node =>
    match cl.get? node with
    | none => none
    | some c =>
      if c = TREE_LEAF then some node
      else
        match feature.get? node, threshold.get? node with
        | some f, some th =>
          if x f.toNat ≤ th then applyFrom feature threshold cl cr x fuel c.toNat
          else
            match cr.get? node with
            | none => none
            | some c2 => applyFrom feature threshold cl cr x fuel c2.toNat
        | _, _ => none

/-- `_apply` for a single query row: start at node 0 and descend to a leaf.
In a finalized tree node ids strictly increase along any path, so the fuel
`cl.length + 1` dominates every path length. -/
def _apply (feature : List Int) (threshold : List ℚ) (cl cr : List Int)
    (x : Nat → ℚ) : Option Nat :=
  applyFrom feature threshold cl cr x (cl.length + 1) 0

/-! ### Tree cell accessors

Total-function views of the node arrays; every read the build or the
predictor performs is in bounds, so the defaults are the arrays' fill
values. -/

def featAt (t : TreeSt) (n : Nat) : Int := t.feature.getD n UNDEFINED

def thrAt (t : TreeSt) (n : Nat) : ℚ := t.threshold.getD n ((-2 : Int) : ℚ)

def clAt (t : TreeSt) (n : Nat) : Int := t.children_left.getD n TREE_LEAF

def crAt (t : TreeSt) (n : Nat) : Int := t.children_right.getD n TREE_LEAF

def slotAt (t : TreeSt) (n : Nat) (left : Bool) : Int :=
  if left then clAt t n else crAt t n

/-! ### Slice and sort facts -/

theorem slice_getElem? (l : List Nat) (s e q : Nat) :
    (slice l s e)[q]? = if q < e - s then l[s + q]? else none := by
  unfold slice
  by_cases h : q < e - s
  · rw [List.getElem?_take_of_lt h, List.getElem?_drop]
    simp [h]
  · rw [List.getElem?_take_eq_none (Nat.le_of_not_lt h)]
    simp [h]

theorem length_slice (l : List Nat) (s e : Nat) :
    (slice l s e).length = min (e - s) (l.length - s) := by
  unfold slice
  simp [List.length_take, List.length_drop]

theorem length_slice_of_le (l : List Nat) (s e : Nat) (hs : s ≤ e)
    (he : e ≤ l.length) : (slice l s e).length = e - s := by
  rw [length_slice]
  omega

theorem mem_slice_iff {l : List Nat} {s e : Nat} {i : Nat} :
    i ∈ slice l s e ↔ ∃ q, q < e - s ∧ l[s + q]? = some i := by
  rw [List.mem_iff_getElem?]
  constructor
  · rintro ⟨q, hq⟩
    rw [slice_getElem? l s e q] at hq
    by_cases h : q < e - s
    · exact ⟨q, h, by simpa [h] using hq⟩
    · simp [h] at hq
  · rintro ⟨q, hq, hget⟩
    exact ⟨q, by rw [slice_getElem? l s e q]; simpa [hq] using hget⟩

theorem mem_of_mem_slice {l : List Nat} {s e : Nat} {i : Nat}
    (h : i ∈ slice l s e) : i ∈ l := by
  unfold slice at h
  exact List.mem_of_mem_drop (List.mem_of_mem_take h)

theorem slice_congr {l1 l2 : List Nat} {s e : Nat}
    (h : ∀ p, s ≤ p → p < e → l1[p]? = l2[p]?) :
    slice l1 s e = slice l2 s e := by
  apply List.ext_getElem?
  intro q
  rw [slice_getElem?, slice_getElem?]
  by_cases hq : q < e - s
  · simp only [hq, if_pos]
    exact h (s + q) (Nat.le_add_right s q) (by omega)
  · simp [hq]

theorem heapsort_perm (key : Nat → ℚ) (l : List Nat) :
    List.Perm (heapsort key l) l := List.perm_insertionSort _ l

theorem heapsort_length (key : Nat → ℚ) (l : List Nat) :
    (heapsort key l).length = l.length := (heapsort_perm key l).length_eq

theorem heapsort_sorted (key : Nat → ℚ) (l : List Nat) :
    (heapsort key l).Sorted (fun i1 i2 => key i1 ≤ key i2) := by
  haveI : IsTotal Nat (fun i1 i2 => key i1 ≤ key i2) :=
    ⟨fun a b => le_total (key a) (key b)⟩
  haveI : IsTrans Nat (fun i1 i2 => key i1 ≤ key i2) :=
    ⟨fun a b c hab hbc => le_trans hab hbc⟩
  exact List.sorted_insertionSort _ l

theorem take_append_slice_append_drop (l : List Nat) (s e : Nat) (hs : s ≤ e) :
    l.take s ++ slice l s e ++ l.drop e = l := by
  unfold slice
  have h1 : l.drop e = (l.drop s).drop (e - s) := by
    rw [List.drop_drop]
    congr 1
    omega
  rw [h1, List.append_assoc, List.take_append_drop, List.take_append_drop]

theorem sortRange_perm (key : Nat → ℚ) (l : List Nat) (s e : Nat) (hs : s ≤ e) :
    List.Perm (sortRange key l s e) l := by
  unfold sortRange
  have h1 : List.Perm (l.take s ++ heapsort key (slice l s e) ++ l.drop e)
      (l.take s ++ slice l s e ++ l.drop e) := by
    apply List.Perm.append_right
    exact List.Perm.append_left _ (heapsort_perm key _)
  rw [take_append_slice_append_drop l s e hs] at h1
  exact h1

theorem sortRange_length (key : Nat → ℚ) (l : List Nat) (s e : Nat)
    (hs : s ≤ e) : (sortRange key l s e).length = l.length :=
  (sortRange_perm key l s e hs).length_eq

theorem sortRange_getElem?_outside (key : Nat → ℚ) (l : List Nat) (s e p : Nat)
    (hs : s ≤ e) (he : e ≤ l.length) (hp : p < s ∨ e ≤ p) :
    (sortRange key l s e)[p]? = l[p]? := by
  unfold sortRange
  have hlt : (l.take s).length = s := by
    rw [List.length_take]
    omega
  have hmid : (heapsort key (slice l s e)).length = e - s := by
    rw [heapsort_length, length_slice_of_le l s e hs he]
  rcases hp with hp | hp
  · rw [List.append_assoc, List.getElem?_append_left (by omega),
      List.getElem?_take_of_lt hp]
  · rw [List.append_assoc, List.getElem?_append_right (by omega)]
    rw [List.getElem?_append_right (by omega)]
    rw [List.getElem?_drop]
    congr 1
    omega

theorem sortRange_slice (key : Nat → ℚ) (l : List Nat) (s e : Nat)
    (hs : s ≤ e) (he : e ≤ l.length) :
    slice (sortRange key l s e) s e = heapsort key (slice l s e) := by
  unfold sortRange
  have hlt : (l.take s).length = s := by
    rw [List.length_take]
    omega
  have hmid : (heapsort key (slice l s e)).length = e - s := by
    rw [heapsort_length, length_slice_of_le l s e hs he]
  show ((l.take s ++ heapsort key (slice l s e) ++ l.drop e).drop s).take (e - s) = _
  rw [List.append_assoc, List.drop_append_of_le_length (by omega),
    List.drop_of_length_le (by omega), List.nil_append,
    List.take_append_of_le_length (by omega), List.take_of_length_le (by omega)]

theorem sortRange_slice_perm (key : Nat → ℚ) (l : List Nat) (s e : Nat)
    (hs : s ≤ e) (he : e ≤ l.length) :
    List.Perm (slice (sortRange key l s e) s e) (slice l s e) := by
  rw [sortRange_slice key l s e hs he]
  exact heapsort_perm key _

/-! ### Canonical sorted feature values

The scan sorts the node's slice of the sample permutation once per feature;
the resulting value sequence depends only on the multiset of rows in the
slice, which the in-place sorts preserve.  `sortedVals` is that canonical
ascending value sequence, computed from the samples array the call started
from. -/

def sortedVals (key : Nat → ℚ) (l : List Nat) (s e : Nat) : List ℚ :=
  List.insertionSort (fun a b => a ≤ b) ((slice l s e).map key)

theorem insertionSort_rat_eq_of_perm {l1 l2 : List ℚ} (h : List.Perm l1 l2) :
    List.insertionSort (fun a b => a ≤ b) l1 =
      List.insertionSort (fun a b => a ≤ b) l2 := by
  haveI : IsTotal ℚ (fun a b => a ≤ b) := ⟨le_total⟩
  haveI : IsTrans ℚ (fun a b => a ≤ b) := ⟨fun a b c => le_trans⟩
  haveI : IsAntisymm ℚ (fun a b => a ≤ b) := ⟨fun a b => le_antisymm⟩
  exact List.eq_of_perm_of_sorted (r := fun a b => a ≤ b)
    ((List.perm_insertionSort _ l1).trans
      (h.trans (List.perm_insertionSort _ l2).symm))
    (List.sorted_insertionSort _ l1) (List.sorted_insertionSort _ l2)

theorem sortedVals_sorted (key : Nat → ℚ) (l : List Nat) (s e : Nat) :
    (sortedVals key l s e).Sorted (fun a b => a ≤ b) := by
  haveI : IsTotal ℚ (fun a b => a ≤ b) := ⟨le_total⟩
  haveI : IsTrans ℚ (fun a b => a ≤ b) := ⟨fun a b c => le_trans⟩
  exact List.sorted_insertionSort _ _

theorem sortedVals_length (key : Nat → ℚ) (l : List Nat) (s e : Nat) :
    (sortedVals key l s e).length = (slice l s e).length := by
  unfold sortedVals
  rw [(List.perm_insertionSort _ _).length_eq, List.length_map]

theorem sortedVals_congr (key : Nat → ℚ) {l1 l2 : List Nat} {s e : Nat}
    (h : List.Perm (slice l1 s e) (slice l2 s e)) :
    sortedVals key l1 s e = sortedVals key l2 s e :=
  insertionSort_rat_eq_of_perm (h.map key)

/-- The value sequence of a key-sorted slice is the canonical one. -/
theorem map_key_heapsort (key : Nat → ℚ) (l : List Nat) :
    (heapsort key l).map key =
      List.insertionSort (fun a b => a ≤ b) (l.map key) := by
  haveI : IsTotal ℚ (fun a b => a ≤ b) := ⟨le_total⟩
  haveI : IsTrans ℚ (fun a b => a ≤ b) := ⟨fun a b c => le_trans⟩
  haveI : IsAntisymm ℚ (fun a b => a ≤ b) := ⟨fun a b => le_antisymm⟩
  exact List.eq_of_perm_of_sorted (r := fun a b => a ≤ b)
    (((heapsort_perm key l).map key).trans
      (List.perm_insertionSort _ (l.map key)).symm)
    (List.Pairwise.map key (fun a b hab => hab) (heapsort_sorted key l))
    (List.sorted_insertionSort _ _)

theorem sorted_getElem?_mono {lq : List ℚ} (h : lq.Sorted (fun a b => a ≤ b))
    {i j : Nat} {a b : ℚ} (hij : i ≤ j) (ha : lq[i]? = some a)
    (hb : lq[j]? = some b) : a ≤ b := by
  obtain ⟨hi, hia⟩ := List.getElem?_eq_some.mp ha
  obtain ⟨hj, hjb⟩ := List.getElem?_eq_some.mp hb
  rcases Nat.eq_or_lt_of_le hij with rfl | hlt
  · rw [hia] at hjb
    exact le_of_eq hjb
  · have := (List.pairwise_iff_getElem.mp h) i j hi hj hlt
    rw [hia, hjb] at this
    exact this

/-! ### The `_best_split` scan invariant -/

/-- Invariant of the `_best_split` scan state relative to the samples array
`samples0` the call started from: the permutation only moves rows inside
`[s, e)`, and any recorded best split position is admissible, with a
threshold lying strictly between the two adjacent canonical sorted values of
the winning feature. -/
structure SInv (X : Nat → Nat → ℚ) (samples0 : List Nat) (s e msl : Nat)
    (st : ScanSt) : Prop where
  len : st.samples.length = samples0.length
  outside : ∀ p, p < s ∨ e ≤ p → st.samples[p]? = samples0[p]?
  perm : List.Perm (slice st.samples s e) (slice samples0 s e)
  best : (st.best_j = -1 ∧ st.best_pos_t = -1) ∨
    (∃ (jN posN : Nat) (a b : ℚ), st.best_j = (jN : Int) ∧ st.best_pos_t = (posN : Int) ∧
      s + 1 ≤ posN ∧ posN + 1 ≤ e ∧ msl ≤ posN - s ∧ msl ≤ e - posN ∧
      (sortedVals (fun i => X i jN) samples0 s e)[posN - 1 - s]? = some a ∧
      (sortedVals (fun i => X i jN) samples0 s e)[posN - s]? = some b ∧
      a < st.best_thresh ∧ st.best_thresh < b)

theorem scanPosStep_samples (impF : ImpurityFn) (key : Nat → ℚ)
    (start_t end_t msl j : Nat) (st : ScanSt) (k : Nat) :
    (scanPosStep impF key start_t end_t msl j st k).samples = st.samples := by
  unfold scanPosStep
  dsimp only
  split
  · rfl
  · split
    · rfl
    · split <;> rfl

theorem scanPosStep_inv {X : Nat → Nat → ℚ} {samples0 : List Nat}
    {s e msl : Nat} (hs : s ≤ e) (he : e ≤ samples0.length)
    (impF : ImpurityFn) (j : Nat) (st : ScanSt) (k : Nat)
    (hks : s ≤ k) (hke : k + 1 < e)
    (hinv : SInv X samples0 s e msl st)
    (hcan : (slice st.samples s e).map (fun i => X i j) =
      sortedVals (fun i => X i j) samples0 s e) :
    SInv X samples0 s e msl
      (scanPosStep impF (fun i => X i j) s e msl j st k) := by
  set key := fun i => X i j with hkey
  have hsmp := scanPosStep_samples impF key s e msl j st k
  refine ⟨by rw [hsmp]; exact hinv.len, by rw [hsmp]; exact hinv.outside,
    by rw [hsmp]; exact hinv.perm, ?_⟩
  unfold scanPosStep
  dsimp only
  split
  · exact hinv.best
  · split
    · exact hinv.best
    · split
      · -- improvement branch: the candidate at position k+1 becomes the best
        rename_i hmsl hdiff himp
        simp only [List.getD_eq_getElem?_getD] at hdiff ⊢
        have hlen2 : st.samples.length = samples0.length := hinv.len
        have hget : ∀ m, s ≤ m → m < e →
            (sortedVals key samples0 s e)[m - s]? =
              some (key (st.samples[m]?.getD 0)) := by
          intro m hms hme
          have hm : m < st.samples.length := by omega
          have h1 : (slice st.samples s e)[m - s]? = st.samples[m]? := by
            rw [slice_getElem?]
            have hlt : m - s < e - s := by omega
            simp only [hlt, if_pos]
            congr 1
            omega
          have hi : st.samples[m]? = some (st.samples.get ⟨m, hm⟩) :=
            List.getElem?_eq_getElem hm
          rw [← hcan, List.getElem?_map, h1, hi]
          simp [hi]
        have ha := hget k hks (by omega)
        have hb := hget (k + 1) (by omega) hke
        have hab : key (st.samples[k]?.getD 0) ≤
            key (st.samples[k + 1]?.getD 0) :=
          sorted_getElem?_mono (sortedVals_sorted key samples0 s e)
            (by omega) ha hb
        have hne : key (st.samples[k + 1]?.getD 0) -
            key (st.samples[k]?.getD 0) ≠ 0 := hdiff
        have hlt : key (st.samples[k]?.getD 0) <
            key (st.samples[k + 1]?.getD 0) := by
          rcases lt_or_eq_of_le hab with h | h
          · exact h
          · exact absurd (by rw [h]; ring) hne
        have hmsl1 : ¬ (e - s) - (k + 1 - s) < msl := fun h => hmsl (Or.inl h)
        have hmsl2 : ¬ (k + 1 - s) < msl := fun h => hmsl (Or.inr h)
        refine Or.inr ⟨j, k + 1, key (st.samples[k]?.getD 0),
          key (st.samples[k + 1]?.getD 0), rfl, rfl, by omega, by omega,
          by omega, by omega, by simpa using ha, by simpa using hb,
          by linarith, by linarith⟩
      · exact hinv.best

theorem foldl_inv {α β : Type} (f : β → α → β) (P : β → Prop) :
    ∀ (l : List α) (b : β), (∀ x ∈ l, ∀ st, P st → P (f st x)) → P b →
      P (l.foldl f b)
  | [], _, _, hb => hb
  | x :: xs, b, h, hb =>
    foldl_inv f P xs (f b x)
      (fun y hy => h y (List.mem_cons_of_mem x hy))
      (h x (List.mem_cons_self x xs) b hb)

theorem scanFeature_inv {X : Nat → Nat → ℚ} {samples0 : List Nat}
    {s e msl : Nat} (hs : s ≤ e) (he : e ≤ samples0.length)
    (impF : ImpurityFn) (j : Nat) (st : ScanSt)
    (hinv : SInv X samples0 s e msl st) :
    SInv X samples0 s e msl (scanFeature impF X s e msl st j) := by
  unfold scanFeature
  dsimp only
  set key := fun i => X i j with hkey
  set st1 : ScanSt := { st with samples := sortRange key st.samples s e }
    with hst1
  have he1 : e ≤ st.samples.length := by rw [hinv.len]; exact he
  have hinv1 : SInv X samples0 s e msl st1 := by
    refine ⟨?_, ?_, ?_, hinv.best⟩
    · show (sortRange key st.samples s e).length = samples0.length
      rw [sortRange_length key st.samples s e hs, hinv.len]
    · intro p hp
      show (sortRange key st.samples s e)[p]? = samples0[p]?
      rw [sortRange_getElem?_outside key st.samples s e p hs he1 hp]
      exact hinv.outside p hp
    · exact (sortRange_slice_perm key st.samples s e hs he1).trans hinv.perm
  have hcan1 : (slice st1.samples s e).map key = sortedVals key samples0 s e := by
    show (slice (sortRange key st.samples s e) s e).map key = _
    rw [sortRange_slice key st.samples s e hs he1, map_key_heapsort]
    unfold sortedVals
    exact insertionSort_rat_eq_of_perm (hinv.perm.map key)
  refine foldl_inv _ (fun st2 => SInv X samples0 s e msl st2 ∧
    st2.samples = st1.samples) (List.range' s (e - 1 - s)) st1
    ?_ ⟨hinv1, rfl⟩ |>.1
  intro k hk st2 hP
  have hkmem := List.mem_range'_1.mp hk
  have hks : s ≤ k := hkmem.1
  have hke : k + 1 < e := by omega
  have hcan2 : (slice st2.samples s e).map key = sortedVals key samples0 s e := by
    rw [hP.2]
    exact hcan1
  exact ⟨scanPosStep_inv hs he impF j st2 k hks hke hP.1 hcan2,
    by rw [scanPosStep_samples]; exact hP.2⟩

theorem scanAll_inv (X : Nat → Nat → ℚ) (samples0 : List Nat)
    (s e msl : Nat) (hs : s ≤ e) (he : e ≤ samples0.length)
    (impF : ImpurityFn) (feats : List Nat) :
    SInv X samples0 s e msl (scanAll impF X samples0 feats s e msl) := by
  unfold scanAll
  refine foldl_inv _ (SInv X samples0 s e msl) feats _ ?_ ?_
  · intro j _ st hP
    exact scanFeature_inv hs he impF j st hP
  · exact ⟨rfl, fun p _ => rfl, List.Perm.refl _, Or.inl ⟨rfl, rfl⟩⟩

/-- The full specification of `_best_split` needed by the build-level proofs:
the call permutes the sample array only inside `[s, e)`; and when it reports
a split (`best_j ≠ -1`), the position is admissible for `min_samples_leaf`,
and after the committing re-sort every row in the left part of the slice has
its winning-feature value `≤ best_thresh` while every row in the right part
has it `> best_thresh`. -/
theorem best_split_spec (impF : ImpurityFn) (X : Nat → Nat → ℚ)
    (samples0 feats : List Nat) (s e msl : Nat)
    (hs : s ≤ e) (he : e ≤ samples0.length) :
    ((_best_split impF X samples0 feats s e msl).1.length = samples0.length) ∧
    (∀ p, p < s ∨ e ≤ p →
      (_best_split impF X samples0 feats s e msl).1[p]? = samples0[p]?) ∧
    List.Perm (slice (_best_split impF X samples0 feats s e msl).1 s e)
      (slice samples0 s e) ∧
    (((_best_split impF X samples0 feats s e msl).2.best_j = -1 ∧
      (_best_split impF X samples0 feats s e msl).2.best_pos_t = -1) ∨
     ∃ (jN posN : Nat),
       (_best_split impF X samples0 feats s e msl).2.best_j = (jN : Int) ∧
       (_best_split impF X samples0 feats s e msl).2.best_pos_t = (posN : Int) ∧
       s + 1 ≤ posN ∧ posN + 1 ≤ e ∧ msl ≤ posN - s ∧ msl ≤ e - posN ∧
       (∀ p i, s ≤ p → p < posN →
         (_best_split impF X samples0 feats s e msl).1[p]? = some i →
           X i jN ≤ (_best_split impF X samples0 feats s e msl).2.best_thresh) ∧
       (∀ p i, posN ≤ p → p < e →
         (_best_split impF X samples0 feats s e msl).1[p]? = some i →
           (_best_split impF X samples0 feats s e msl).2.best_thresh < X i jN)) := by
  have hST := scanAll_inv X samples0 s e msl hs he impF feats
  set st := scanAll impF X samples0 feats s e msl with hst
  unfold _best_split
  rw [← hst]
  dsimp only
  by_cases hj : st.best_j = -1
  · rw [if_pos hj]
    refine ⟨hST.len, hST.outside, hST.perm, Or.inl ⟨hj, ?_⟩⟩
    rcases hST.best with ⟨_, h⟩ | ⟨jN, posN, a, b, hjj, _⟩
    · exact h
    · rw [hjj] at hj
      exact absurd hj (by simp)
  · rw [if_neg hj]
    rcases hST.best with ⟨h, _⟩ | ⟨jN, posN, a, b, hjj, hpos, h1, h2, h3, h4, ha, hb, hth1, hth2⟩
    · exact absurd h hj
    have he1 : e ≤ st.samples.length := by rw [hST.len]; exact he
    set key := fun i => X i st.best_j.toNat with hkey
    have hkeyj : key = fun i => X i jN := by rw [hkey, hjj]; simp
    rw [← hkeyj] at ha hb
    set F := sortRange key st.samples s e with hF
    have hlenF : F.length = samples0.length := by
      rw [hF, sortRange_length key st.samples s e hs, hST.len]
    have hpermF : List.Perm (slice F s e) (slice samples0 s e) :=
      (sortRange_slice_perm key st.samples s e hs he1).trans hST.perm
    have hcanF : (slice F s e).map key = sortedVals key samples0 s e := by
      rw [hF, sortRange_slice key st.samples s e hs he1, map_key_heapsort]
      unfold sortedVals
      exact insertionSort_rat_eq_of_perm (hST.perm.map key)
    have hvalAt : ∀ p i, s ≤ p → p < e → F[p]? = some i →
        (sortedVals key samples0 s e)[p - s]? = some (key i) := by
      intro p i hps hpe hgot
      have h1 : (slice F s e)[p - s]? = F[p]? := by
        rw [slice_getElem?]
        have hlt : p - s < e - s := by omega
        simp only [hlt, if_pos]
        congr 1
        omega
      rw [← hcanF, List.getElem?_map, h1, hgot]
      rfl
    refine ⟨hlenF, ?_, hpermF, Or.inr ⟨jN, posN, hjj, hpos, h1, h2, h3, h4, ?_, ?_⟩⟩
    · intro p hp
      rw [hF, sortRange_getElem?_outside key st.samples s e p hs he1 hp]
      exact hST.outside p hp
    · intro p i hps hppos hgot
      have hv := hvalAt p i hps (by omega) hgot
      have hmono : key i ≤ a :=
        sorted_getElem?_mono (sortedVals_sorted key samples0 s e)
          (show p - s ≤ posN - 1 - s by omega) hv ha
      have : key i < st.best_thresh := lt_of_le_of_lt hmono hth1
      rw [hkeyj] at this
      exact le_of_lt this
    · intro p i hppos hpe hgot
      have hv := hvalAt p i (by omega) hpe hgot
      have hmono : b ≤ key i :=
        sorted_getElem?_mono (sortedVals_sorted key samples0 s e)
          (show posN - s ≤ p - s by omega) hb hv
      have : st.best_thresh < key i := lt_of_lt_of_le hth2 hmono
      rw [hkeyj] at this
      exact this

/-! ### Build-loop inversion and invariance -/

theorem buildStep_inr {ρ : Type} {shuffle : ρ → List Nat → List Nat × ρ}
    {impF : ImpurityFn} {pr : BuildParams} {st stF : BuildState ρ}
    (h : buildStep shuffle impF pr st = some (.inr stF)) :
    stF = st ∧ st.stack = [] := by
  unfold buildStep at h
  cases hstk : st.stack with
  | nil =>
    rw [hstk] at h
    simp only [Option.some.injEq, Sum.inr.injEq] at h
    exact ⟨h.symm, rfl⟩
  | cons E rest =>
    rw [hstk] at h
    dsimp only at h
    repeat' split at h
    all_goals simp at h

/-- Inversion of one successful, non-final loop iteration: the popped entry,
the patched tree, and which of the three node-producing branches ran, with
all intermediate success facts. -/
theorem buildStep_inl_cases {ρ : Type} {shuffle : ρ → List Nat → List Nat × ρ}
    {impF : ImpurityFn} {pr : BuildParams} {st st2 : BuildState ρ}
    (h : buildStep shuffle impF pr st = some (.inl st2)) :
    ∃ E rest t1, st.stack = E :: rest ∧
      ((0 < st.node_t ∧
          st.tree.setChild E.left E.parent (st.node_t : Int) = some t1) ∨
        (st.node_t = 0 ∧ t1 = st.tree)) ∧
      (((some E.depth = pr.max_depth ∨
          E.end_ - E.start < pr.min_samples_split) ∧
        ∃ t2, t1.add_terminal_node E.value = some t2 ∧
          st2 = { st with
                  tree := t2
                  stack := rest
                  node_t := st.node_t + 1
                  leaves := (st.node_t, E.start, E.end_) :: st.leaves }) ∨
      (¬ (some E.depth = pr.max_depth ∨
          E.end_ - E.start < pr.min_samples_split) ∧
        ∃ fr : List Nat × ρ,
          fr = (if pr.max_features ≠ pr.n_features
            then shuffle st.rng st.features else (st.features, st.rng)) ∧
        ∃ bs : List Nat × SplitOut,
          bs = _best_split impF pr.X st.samples (fr.1.take pr.max_features)
            E.start E.end_ pr.min_samples_leaf ∧
        ((bs.2.best_j = -1 ∧
          ∃ t2, t1.add_terminal_node E.value = some t2 ∧
            st2 = { st with
                    samples := bs.1
                    features := fr.1
                    rng := fr.2
                    tree := t2
                    stack := rest
                    node_t := st.node_t + 1
                    leaves := (st.node_t, E.start, E.end_) :: st.leaves }) ∨
        (bs.2.best_j ≠ -1 ∧
          ∃ t2, t1.add_node bs.2.best_thresh bs.2.best_j E.value = some t2 ∧
            rest.length < STACK_CAPACITY ∧ rest.length + 1 < STACK_CAPACITY ∧
            st2 = { st with
                    samples := bs.1
                    features := fr.1
                    rng := fr.2
                    tree := t2
                    stack :=
                      (⟨bs.2.best_pos_t.toNat, E.end_, false, E.depth + 1,
                        bs.2.N_R, st.node_t, bs.2.value_R⟩ : Entry) ::
                      (⟨E.start, bs.2.best_pos_t.toNat, true, E.depth + 1,
                        bs.2.N_L, st.node_t, bs.2.value_L⟩ : Entry) :: rest
                    node_t := st.node_t + 1
                    splits := (st.node_t, E.start, bs.2.best_pos_t.toNat, E.end_) :: st.splits })))) := by
  unfold buildStep at h
  cases hstk : st.stack with
  | nil =>
    rw [hstk] at h
    simp at h
  | cons E rest =>
    rw [hstk] at h
    dsimp only at h
    refine ⟨E, rest, ?_⟩
    split at h
    · cases h
    · rename_i t1 hpatch
      refine ⟨t1, rfl, ?_, ?_⟩
      · by_cases hn : 0 < st.node_t
        · rw [if_pos hn] at hpatch
          exact Or.inl ⟨hn, hpatch⟩
        · rw [if_neg hn] at hpatch
          simp only [Option.some.injEq] at hpatch
          exact Or.inr ⟨Nat.eq_zero_of_not_pos hn, hpatch.symm⟩
      · split at h
        · rename_i hterm
          left
          refine ⟨hterm, ?_⟩
          split at h
          · cases h
          · rename_i t2 hadd
            simp only [Option.some.injEq, Sum.inl.injEq] at h
            exact ⟨t2, hadd, h.symm⟩
        · rename_i hterm
          right
          set fr := (if pr.max_features ≠ pr.n_features
            then shuffle st.rng st.features else (st.features, st.rng)) with hfr
          refine ⟨hterm, fr, rfl, _, rfl, ?_⟩
          split at h
          · rename_i hj
            left
            refine ⟨hj, ?_⟩
            split at h
            · cases h
            · rename_i t2 hadd
              simp only [Option.some.injEq, Sum.inl.injEq] at h
              exact ⟨t2, hadd, h.symm⟩
          · rename_i hj
            right
            refine ⟨hj, ?_⟩
            split at h
            · cases h
            · rename_i t2 hadd
              split at h
              · cases h
              · rename_i s1 hpush1
                split at h
                · cases h
                · rename_i s2 hpush2
                  unfold pushEntry at hpush1 hpush2
                  split at hpush1
                  · cases hpush1
                  · rename_i hc1
                    simp only [Option.some.injEq] at hpush1
                    split at hpush2
                    · cases hpush2
                    · rename_i hc2
                      simp only [Option.some.injEq] at hpush2
                      simp only [Option.some.injEq, Sum.inl.injEq] at h
                      refine ⟨t2, hadd, by omega, ?_, ?_⟩
                      · rw [← hpush1] at hc2
                        simp only [List.length_cons] at hc2
                        omega
                      · rw [← h, ← hpush2, ← hpush1]

theorem buildLoop_inv {ρ : Type} (shuffle : ρ → List Nat → List Nat × ρ)
    (impF : ImpurityFn) (pr : BuildParams) (P : BuildState ρ → Prop)
    (hstep : ∀ st st2, P st →
      buildStep shuffle impF pr st = some (.inl st2) → P st2) :
    ∀ (fuel : Nat) (st stF : BuildState ρ),
      buildLoop shuffle impF pr fuel st = some stF → P st →
        P stF ∧ stF.stack = []
  | 0, st, stF, h, _ => by simp [buildLoop] at h
  | fuel + 1, st, stF, h, hP => by
    unfold buildLoop at h
    cases hbs : buildStep shuffle impF pr st with
    | none => rw [hbs] at h; cases h
    | some r =>
      rw [hbs] at h
      cases r with
      | inr s =>
        simp only [Option.some.injEq] at h
        obtain ⟨rfl, hstk⟩ := buildStep_inr hbs
        rw [← h]
        exact ⟨hP, hstk⟩
      | inl s2 =>
        exact buildLoop_inv shuffle impF pr P hstep fuel s2 stF h
          (hstep st s2 hP hbs)

/-! ### C6: committed splits respect `min_samples_leaf` -/

/-- Every pending stack entry owns a well-formed range of the sample
permutation. -/
def RangeInv {ρ : Type} (st : BuildState ρ) : Prop :=
  ∀ E ∈ st.stack, E.start ≤ E.end_ ∧ E.end_ ≤ st.samples.length

/-- Every committed split `(node, start, pos, end)` cut a nonempty range at
an interior position leaving at least `msl` samples on each side. -/
def SplitsOk {ρ : Type} (msl : Nat) (st : BuildState ρ) : Prop :=
  ∀ q ∈ st.splits, q.2.1 < q.2.2.1 ∧ q.2.2.1 < q.2.2.2 ∧
    q.2.1 + msl ≤ q.2.2.1 ∧ q.2.2.1 + msl ≤ q.2.2.2

theorem step_preserves_rangeSplits {ρ : Type}
    {shuffle : ρ → List Nat → List Nat × ρ} {impF : ImpurityFn}
    {pr : BuildParams} {st st2 : BuildState ρ}
    (hP : RangeInv st ∧ SplitsOk pr.min_samples_leaf st)
    (h : buildStep shuffle impF pr st = some (.inl st2)) :
    RangeInv st2 ∧ SplitsOk pr.min_samples_leaf st2 := by
  obtain ⟨E, rest, t1, hstk, _, hbr⟩ := buildStep_inl_cases h
  have hE := hP.1 E (hstk ▸ List.mem_cons_self E rest)
  rcases hbr with ⟨_, t2, _, rfl⟩ | ⟨_, fr, hfr, bs, hbs, hrest⟩
  · refine ⟨?_, hP.2⟩
    intro F hF
    exact hP.1 F (hstk ▸ List.mem_cons_of_mem E hF)
  · have hsp := best_split_spec impF pr.X st.samples
      (fr.1.take pr.max_features) E.start E.end_ pr.min_samples_leaf
      hE.1 hE.2
    rw [← hbs] at hsp
    rcases hrest with ⟨_, t2, _, rfl⟩ | ⟨hj, t2, _, _, _, rfl⟩
    · refine ⟨?_, hP.2⟩
      intro F hF
      have hr := hP.1 F (hstk ▸ List.mem_cons_of_mem E hF)
      refine ⟨hr.1, ?_⟩
      show F.end_ ≤ bs.1.length
      rw [hsp.1]
      exact hr.2
    · rcases hsp.2.2.2 with ⟨hjm1, _⟩ | ⟨jN, posN, hjj, hpos, h1, h2, h3, h4, _, _⟩
      · exact absurd hjm1 hj
      have hposn : bs.2.best_pos_t.toNat = posN := by rw [hpos]; simp
      have hlen : bs.1.length = st.samples.length := hsp.1
      obtain ⟨hE1, hE2⟩ := hE
      constructor
      · intro F hF
        simp only [List.mem_cons] at hF
        rcases hF with rfl | rfl | hF
        · exact ⟨by dsimp only; rw [hposn]; omega,
            by dsimp only; rw [hlen]; omega⟩
        · exact ⟨by dsimp only; rw [hposn]; omega,
            by dsimp only; rw [hposn, hlen]; omega⟩
        · have hr := hP.1 F (hstk ▸ List.mem_cons_of_mem E hF)
          exact ⟨hr.1, by dsimp only; rw [hlen]; exact hr.2⟩
      · intro q hq
        simp only [List.mem_cons] at hq
        rcases hq with rfl | hq
        · refine ⟨?_, ?_, ?_, ?_⟩ <;> dsimp only <;> rw [hposn] <;> omega
        · exact hP.2 q hq

/-- C6 — Every internal node committed to the tree records a split of its
sample range `[start, end)` at a position `pos` that is strictly interior and
leaves at least `min_samples_leaf` samples on each side: `pos - start ≥ msl`
and `end - pos ≥ msl`. -/
theorem build_splits_min_samples_leaf {ρ : Type}
    (shuffle : ρ → List Nat → List Nat × ρ) (rng0 : ρ) (log2f : ℚ → ℚ)
    (criterion : Nat) (pr : BuildParams) (res : BuildResult)
    (h : _build_tree shuffle rng0 log2f criterion pr = some res) :
    ∀ q ∈ res.splits, q.2.1 < q.2.2.1 ∧ q.2.2.1 < q.2.2.2 ∧
      q.2.1 + pr.min_samples_leaf ≤ q.2.2.1 ∧
      q.2.2.1 + pr.min_samples_leaf ≤ q.2.2.2 := by
  unfold _build_tree at h
  dsimp only at h
  split at h
  · cases h
  · rename_i stF hloop
    have hinv := buildLoop_inv shuffle _ pr
      (fun s => RangeInv s ∧ SplitsOk pr.min_samples_leaf s)
      (fun a b hPa hab => step_preserves_rangeSplits hPa hab)
      _ _ _ hloop
      ⟨by
        intro F hF
        simp only [initState, List.mem_cons, List.not_mem_nil, or_false] at hF
        subst hF
        exact ⟨Nat.zero_le _, le_refl _⟩,
       by
        intro q hq
        simp only [initState, List.not_mem_nil] at hq⟩
    simp only [Option.some.injEq] at h
    rw [← h]
    intro q hq
    exact hinv.1.2 q hq

/-- A trivial injected random source (used both as the canonical rng-free
run below and in the concrete scenarios, which run with
`max_features = n_features`, where `_build_tree` never consults it). -/
def noShuffle : Unit → List Nat → List Nat × Unit := fun u l => (l, u)

/-! ### C10: the random source is dead when no subsampling happens -/

/-- Forget the random-source component of a build state. -/
def eraseRng {ρ : Type} (st : BuildState ρ) : BuildState Unit :=
  { samples := st.samples, features := st.features, rng := (),
    tree := st.tree, stack := st.stack, node_t := st.node_t,
    leaves := st.leaves, splits := st.splits }

theorem buildStep_eraseRng {ρ : Type} (shuffle : ρ → List Nat → List Nat × ρ)
    (impF : ImpurityFn) (pr : BuildParams)
    (hmf : pr.max_features = pr.n_features) (st : BuildState ρ) :
    buildStep noShuffle impF pr (eraseRng st) =
      Option.map (Sum.map eraseRng eraseRng) (buildStep shuffle impF pr st) := by
  obtain ⟨smp, fts, g, tr, stk, nt, lv, sp⟩ := st
  cases stk with
  | nil => rfl
  | cons E rest =>
    unfold buildStep eraseRng
    dsimp only
    have hf1 : (if pr.max_features ≠ pr.n_features
        then noShuffle () fts else (fts, ())) = (fts, ()) :=
      if_neg (by omega)
    have hf2 : (if pr.max_features ≠ pr.n_features
        then shuffle g fts else (fts, g)) = (fts, g) :=
      if_neg (by omega)
    rw [hf1, hf2]
    dsimp only
    cases hpatch : (if 0 < nt then tr.setChild E.left E.parent (nt : Int)
        else some tr) with
    | none => rfl
    | some t1 =>
      dsimp only
      split
      · cases hadd : t1.add_terminal_node E.value <;> rfl
      · split
        · cases hadd : t1.add_terminal_node E.value <;> rfl
        · cases hadd : t1.add_node _ _ E.value with
          | none => rfl
          | some t2 =>
            dsimp only
            cases hp1 : pushEntry rest _ with
            | none => rfl
            | some s1 =>
              dsimp only
              cases hp2 : pushEntry s1 _ <;> rfl

theorem buildLoop_eraseRng {ρ : Type} (shuffle : ρ → List Nat → List Nat × ρ)
    (impF : ImpurityFn) (pr : BuildParams)
    (hmf : pr.max_features = pr.n_features) :
    ∀ (fuel : Nat) (st : BuildState ρ),
      buildLoop noShuffle impF pr fuel (eraseRng st) =
        Option.map eraseRng (buildLoop shuffle impF pr fuel st)
  | 0, _ => rfl
  | fuel + 1, st => by
    unfold buildLoop
    rw [buildStep_eraseRng shuffle impF pr hmf st]
    cases hbs : buildStep shuffle impF pr st with
    | none => rfl
    | some r =>
      cases r with
      | inr s => rfl
      | inl s2 =>
        dsimp only [Option.map, Sum.map]
        exact buildLoop_eraseRng shuffle impF pr hmf fuel s2

/-- C10 — When the resolved feature-subsample count equals the number of
features, the feature order is never shuffled and the random source is never
consulted: two builds with arbitrary, different random sources (even of
different types) produce the same result. -/
theorem build_rng_independent_without_subsampling {ρ1 ρ2 : Type}
    (sh1 : ρ1 → List Nat → List Nat × ρ1) (g1 : ρ1)
    (sh2 : ρ2 → List Nat → List Nat × ρ2) (g2 : ρ2)
    (log2f : ℚ → ℚ) (criterion : Nat) (pr : BuildParams)
    (hmf : pr.max_features = pr.n_features) :
    _build_tree sh1 g1 log2f criterion pr =
      _build_tree sh2 g2 log2f criterion pr := by
  unfold _build_tree
  dsimp only
  have h1 := buildLoop_eraseRng sh1
    (impurityOf criterion (numClasses pr.n_samples pr.y) log2f pr.y
      pr.sample_weight) pr hmf
    (2 * (initSamples pr.n_samples pr.sample_weight).length + 2)
    (initState g1 pr)
  have h2 := buildLoop_eraseRng sh2
    (impurityOf criterion (numClasses pr.n_samples pr.y) log2f pr.y
      pr.sample_weight) pr hmf
    (2 * (initSamples pr.n_samples pr.sample_weight).length + 2)
    (initState g2 pr)
  have he : (eraseRng (initState g1 pr) : BuildState Unit) =
      eraseRng (initState g2 pr) := rfl
  rw [he, h2] at h1
  cases hl1 : buildLoop sh1
      (impurityOf criterion (numClasses pr.n_samples pr.y) log2f pr.y
        pr.sample_weight) pr
      (2 * (initSamples pr.n_samples pr.sample_weight).length + 2)
      (initState g1 pr) with
  | none =>
    rw [hl1] at h1
    cases hl2 : buildLoop sh2
        (impurityOf criterion (numClasses pr.n_samples pr.y) log2f pr.y
          pr.sample_weight) pr
        (2 * (initSamples pr.n_samples pr.sample_weight).length + 2)
        (initState g2 pr) with
    | none => rfl
    | some s2 => rw [hl2] at h1; cases h1
  | some s1 =>
    rw [hl1] at h1
    cases hl2 : buildLoop sh2
        (impurityOf criterion (numClasses pr.n_samples pr.y) log2f pr.y
          pr.sample_weight) pr
        (2 * (initSamples pr.n_samples pr.sample_weight).length + 2)
        (initState g2 pr) with
    | none => rw [hl2] at h1; cases h1
    | some s2 =>
      rw [hl2] at h1
      simp only [Option.map, Option.some.injEq] at h1
      unfold eraseRng at h1
      simp only [BuildState.mk.injEq] at h1
      obtain ⟨hsam, hfts, _, hteq, hstk, hnt, hlv, hspl⟩ := h1
      dsimp only
      rw [hsam, hteq, hlv, hspl]

/-! ### C9: zero-weight rows contribute nothing

The build reads a row's features and target only through the sample
permutation, which contains exactly the positive-weight row indices.  The one
subtlety is classification: the class count is derived from *all* targets
(tree.py line 360), so changing a zero-weight row's target can change the
count of classes; the extra classes have zero weighted count everywhere and
never alter a majority vote or an impurity sum. -/

theorem mem_initSamples {n : Nat} {w : Nat → ℚ} {i : Nat} :
    i ∈ initSamples n w ↔ i < n ∧ 0 < w i := by
  unfold initSamples
  rw [List.mem_filter, List.mem_range]
  simp

theorem wsum_congr {f g : Nat → ℚ} {l : List Nat}
    (h : ∀ i ∈ l, f i = g i) : wsum f l = wsum g l := by
  unfold wsum
  congr 1
  exact List.map_congr_left h

theorem wsum_eq_zero {f : Nat → ℚ} {l : List Nat}
    (h : ∀ i ∈ l, f i = 0) : wsum f l = 0 := by
  unfold wsum
  apply List.sum_eq_zero
  intro x hx
  obtain ⟨i, hi, rfl⟩ := List.mem_map.mp hx
  exact h i hi

theorem le_foldl_max (l : List Nat) : ∀ a : Nat, a ≤ l.foldl max a := by
  induction l with
  | nil => intro a; exact le_refl a
  | cons b t ih => intro a; exact le_trans (le_max_left a b) (ih (max a b))

theorem foldl_max_le_mem {l : List Nat} :
    ∀ {a x : Nat}, x ∈ l → x ≤ l.foldl max a := by
  induction l with
  | nil => intro a x hx; cases hx
  | cons b t ih =>
    intro a x hx
    rcases List.mem_cons.mp hx with rfl | hx
    · exact le_trans (le_max_right a x) (le_foldl_max t (max a x))
    · exact ih hx

theorem code_lt_numClasses {n : Nat} {y : Nat → ℚ} {i : Nat} (hi : i < n) :
    (ratTrunc (y i)).toNat < numClasses n y := by
  unfold numClasses
  have hmem : (ratTrunc (y i)).toNat ∈
      (List.range n).map (fun i2 => (ratTrunc (y i2)).toNat) :=
    List.mem_map.mpr ⟨i, List.mem_range.mpr hi, rfl⟩
  have := foldl_max_le_mem (a := 0) hmem
  omega

theorem classCount_eq_zero {n K : Nat} {y w : Nat → ℚ} {lst : List Nat}
    (hmem : ∀ i ∈ lst, i < n ∧ (ratTrunc (y i)).toNat < K)
    {k : Nat} (hk : K ≤ k) : classCount y w lst k = 0 := by
  apply wsum_eq_zero
  intro i hi
  have hcode := (hmem i hi).2
  have hne : ratTrunc (y i) ≠ (k : Int) := by omega
  simp [hne]

theorem classCount_nonneg {y w : Nat → ℚ} {lst : List Nat}
    (hwn : ∀ i, 0 ≤ w i) (k : Nat) : 0 ≤ classCount y w lst k := by
  unfold classCount wsum
  apply List.sum_nonneg
  intro x hx
  obtain ⟨i, _, rfl⟩ := List.mem_map.mp hx
  by_cases hc : ratTrunc (y i) = (k : Int)
  · rw [if_pos hc]
    exact hwn i
  · rw [if_neg hc]

theorem majority_fold_fst_mono (cnt : Nat → ℚ) :
    ∀ (l : List Nat) (acc : ℚ × ℚ),
      acc.1 ≤ ((l.foldl (fun acc2 k =>
        if cnt k > acc2.1 then (cnt k, (k : ℚ)) else acc2) acc)).1 := by
  intro l
  induction l with
  | nil => intro acc; exact le_refl _
  | cons b t ih =>
    intro acc
    rw [List.foldl_cons]
    refine le_trans ?_ (ih _)
    by_cases hgt : cnt b > acc.1
    · rw [if_pos hgt]
      exact le_of_lt hgt
    · rw [if_neg hgt]

theorem majority_fold_fst_nonneg {cnt : Nat → ℚ} (hnn : ∀ k, 0 ≤ cnt k)
    {K : Nat} (hK : 1 ≤ K) :
    0 ≤ ((List.range K).foldl (fun acc k =>
      if cnt k > acc.1 then (cnt k, (k : ℚ)) else acc) (-DOUBLE_MAX, 0)).1 := by
  obtain ⟨K2, rfl⟩ := Nat.exists_eq_add_of_le hK
  rw [List.range_add, List.foldl_append]
  refine le_trans ?_ (majority_fold_fst_mono cnt _ _)
  have h0 : cnt 0 > -DOUBLE_MAX := by
    refine lt_of_lt_of_le ?_ (hnn 0)
    have hD : (0 : ℚ) < DOUBLE_MAX := by decide
    linarith
  have hr1 : List.range 1 = [0] := rfl
  rw [hr1]
  simp only [List.foldl_cons, List.foldl_nil, h0, if_pos]
  exact hnn 0

theorem majorityClass_stable {cnt : Nat → ℚ} {K K2 : Nat}
    (h1 : 1 ≤ K) (hK : K ≤ K2) (hz : ∀ k, K ≤ k → cnt k = 0)
    (hnn : ∀ k, 0 ≤ cnt k) :
    majorityClass K2 cnt = majorityClass K cnt := by
  unfold majorityClass
  congr 1
  induction K2, hK using Nat.le_induction with
  | base => rfl
  | succ m hm ih =>
    rw [List.range_succ, List.foldl_append, ih]
    simp only [List.foldl_cons, List.foldl_nil]
    rw [hz m hm]
    have hge := majority_fold_fst_nonneg hnn h1
    rw [if_neg]
    simp only [gt_iff_lt, not_lt]
    exact hge

theorem sum_range_map_stable {term : Nat → ℚ} {K K2 : Nat} (hK : K ≤ K2)
    (hz : ∀ k, K ≤ k → term k = 0) :
    ((List.range K2).map term).sum = ((List.range K).map term).sum := by
  induction K2, hK using Nat.le_induction with
  | base => rfl
  | succ m hm ih =>
    rw [List.range_succ, List.map_append, List.sum_append, ih]
    simp [hz m hm]

theorem classCount_congr {y1 y2 w : Nat → ℚ} {lst : List Nat}
    (hy : ∀ i ∈ lst, y1 i = y2 i) (k : Nat) :
    classCount y1 w lst k = classCount y2 w lst k := by
  apply wsum_congr
  intro i hi
  rw [hy i hi]

theorem majorityClass_congr {K : Nat} {c1 c2 : Nat → ℚ}
    (h : ∀ k, c1 k = c2 k) : majorityClass K c1 = majorityClass K c2 :=
  congrArg (majorityClass K) (funext h)

theorem compute_counts_congr {n : Nat} {y1 y2 w : Nat → ℚ}
    (hwn : ∀ i, 0 ≤ w i)
    (smp : List Nat) (hmem : ∀ i ∈ smp, i < n ∧ 0 < w i)
    (hy2 : ∀ i ∈ smp, y1 i = y2 i) (s p e : Nat) :
    _compute_counts (numClasses n y1) y1 w smp s p e =
      _compute_counts (numClasses n y2) y2 w smp s p e := by
  have hside : ∀ lst : List Nat, (∀ i ∈ lst, i ∈ smp) →
      majorityClass (numClasses n y1) (classCount y1 w lst) =
        majorityClass (numClasses n y2) (classCount y2 w lst) := by
    intro lst hsub
    set K1 := numClasses n y1 with hK1
    set K2 := numClasses n y2 with hK2
    set M := min K1 K2 with hM
    have h1K1 : 1 ≤ K1 := Nat.le_add_left 1 _
    have h1K2 : 1 ≤ K2 := Nat.le_add_left 1 _
    have hcodes : ∀ i ∈ lst, i < n ∧ (ratTrunc (y1 i)).toNat < M := by
      intro i hi
      have hin := hmem i (hsub i hi)
      have hc1 : (ratTrunc (y1 i)).toNat < K1 := code_lt_numClasses hin.1
      have hc2 : (ratTrunc (y2 i)).toNat < K2 := code_lt_numClasses hin.1
      rw [← hy2 i (hsub i hi)] at hc2
      exact ⟨hin.1, by omega⟩
    have hcodes2 : ∀ i ∈ lst, i < n ∧ (ratTrunc (y2 i)).toNat < M := by
      intro i hi
      have := hcodes i hi
      rw [hy2 i (hsub i hi)] at this
      exact this
    have hcl : ∀ k, classCount y1 w lst k = classCount y2 w lst k :=
      classCount_congr (fun i hi => hy2 i (hsub i hi))
    calc majorityClass K1 (classCount y1 w lst)
        = majorityClass M (classCount y1 w lst) :=
          majorityClass_stable (by omega) (by omega)
            (fun k hk => classCount_eq_zero hcodes hk)
            (classCount_nonneg hwn)
      _ = majorityClass M (classCount y2 w lst) := majorityClass_congr hcl
      _ = majorityClass K2 (classCount y2 w lst) :=
          (majorityClass_stable (by omega) (by omega)
            (fun k hk => classCount_eq_zero hcodes2 hk)
            (classCount_nonneg hwn)).symm
  unfold _compute_counts
  dsimp only
  rw [hside (slice smp s p) (fun i hi => mem_of_mem_slice hi),
    hside (slice smp p e) (fun i hi => mem_of_mem_slice hi)]

theorem sum_class_terms_congr {n : Nat} {y1 y2 w : Nat → ℚ}
    (term1 term2 : Nat → ℚ)
    (smp : List Nat) (hmem : ∀ i ∈ smp, i < n ∧ 0 < w i)
    (hy2 : ∀ i ∈ smp, y1 i = y2 i)
    (lst : List Nat) (hsub : ∀ i ∈ lst, i ∈ smp)
    (hterm : ∀ k, term1 k = term2 k)
    (hz1 : ∀ k, classCount y1 w lst k = 0 → term1 k = 0)
    (hz2 : ∀ k, classCount y2 w lst k = 0 → term2 k = 0) :
    ((List.range (numClasses n y1)).map term1).sum =
      ((List.range (numClasses n y2)).map term2).sum := by
  set K1 := numClasses n y1 with hK1
  set K2 := numClasses n y2 with hK2
  set M := min K1 K2 with hM
  have hcodes : ∀ i ∈ lst, i < n ∧ (ratTrunc (y1 i)).toNat < M := by
    intro i hi
    have hin := hmem i (hsub i hi)
    have hc1 : (ratTrunc (y1 i)).toNat < K1 := code_lt_numClasses hin.1
    have hc2 : (ratTrunc (y2 i)).toNat < K2 := code_lt_numClasses hin.1
    rw [← hy2 i (hsub i hi)] at hc2
    exact ⟨hin.1, by omega⟩
  have hcodes2 : ∀ i ∈ lst, i < n ∧ (ratTrunc (y2 i)).toNat < M := by
    intro i hi
    have := hcodes i hi
    rw [hy2 i (hsub i hi)] at this
    exact this
  calc ((List.range K1).map term1).sum
      = ((List.range M).map term1).sum :=
        sum_range_map_stable (by omega)
          (fun k hk => hz1 k (classCount_eq_zero hcodes hk))
    _ = ((List.range M).map term2).sum := by
        congr 1
        exact List.map_congr_left (fun k _ => hterm k)
    _ = ((List.range K2).map term2).sum :=
        (sum_range_map_stable (by omega)
          (fun k hk => hz2 k (classCount_eq_zero hcodes2 hk))).symm

/-- Changing features or targets of rows outside the positive-weight sample
set does not change any impurity evaluation: the key congruence behind C9. -/
theorem impurityOf_congr (criterion : Nat) (log2f : ℚ → ℚ) (n : Nat)
    (y1 y2 w : Nat → ℚ) (hwn : ∀ i, 0 ≤ w i)
    (smp : List Nat) (hmem : ∀ i ∈ smp, i < n ∧ 0 < w i)
    (hy2 : ∀ i ∈ smp, y1 i = y2 i) (s p e : Nat) (o : Stats) :
    impurityOf criterion (numClasses n y1) log2f y1 w smp s p e o =
      impurityOf criterion (numClasses n y2) log2f y2 w smp s p e o := by
  have hyL : ∀ i ∈ slice smp s p, y1 i = y2 i :=
    fun i hi => hy2 i (mem_of_mem_slice hi)
  have hyR : ∀ i ∈ slice smp p e, y1 i = y2 i :=
    fun i hi => hy2 i (mem_of_mem_slice hi)
  have hcc := compute_counts_congr hwn smp hmem hy2 s p e
  unfold impurityOf
  by_cases h0 : criterion = MSE_CRITERION
  · rw [if_pos h0, if_pos h0]
    unfold _impurity_mse
    have h1 : wsum (fun i => w i * y1 i * y1 i) (slice smp s p) =
        wsum (fun i => w i * y2 i * y2 i) (slice smp s p) :=
      wsum_congr (fun i hi => by rw [hyL i hi])
    have h2 : wsum (fun i => w i * y1 i) (slice smp s p) =
        wsum (fun i => w i * y2 i) (slice smp s p) :=
      wsum_congr (fun i hi => by rw [hyL i hi])
    have h3 : wsum (fun i => w i * y1 i * y1 i) (slice smp p e) =
        wsum (fun i => w i * y2 i * y2 i) (slice smp p e) :=
      wsum_congr (fun i hi => by rw [hyR i hi])
    have h4 : wsum (fun i => w i * y1 i) (slice smp p e) =
        wsum (fun i => w i * y2 i) (slice smp p e) :=
      wsum_congr (fun i hi => by rw [hyR i hi])
    simp only [h1, h2, h3, h4]
  · rw [if_neg h0, if_neg h0]
    by_cases h1 : criterion = GINI_CRITERION
    · rw [if_pos h1, if_pos h1]
      simp only [_impurity_gini]
      rw [hcc]
      set st2 := _compute_counts (numClasses n y2) y2 w smp s p e with hst2
      by_cases hcond : st2.N_L = 0 ∧ st2.N_R = 0
      · rw [if_pos hcond, if_pos hcond]
      · rw [if_neg hcond, if_neg hcond]
        have hgL := sum_class_terms_congr
          (fun k => (classCount y1 w (slice smp s p) k / st2.N_t) *
            (1 - classCount y1 w (slice smp s p) k / st2.N_t))
          (fun k => (classCount y2 w (slice smp s p) k / st2.N_t) *
            (1 - classCount y2 w (slice smp s p) k / st2.N_t))
          smp hmem hy2 (slice smp s p) (fun i hi => mem_of_mem_slice hi)
          (fun k => by dsimp only; rw [classCount_congr hyL k])
          (fun k hk => by dsimp only; rw [hk]; ring)
          (fun k hk => by dsimp only; rw [hk]; ring)
        have hgR := sum_class_terms_congr
          (fun k => (classCount y1 w (slice smp p e) k / st2.N_t) *
            (1 - classCount y1 w (slice smp p e) k / st2.N_t))
          (fun k => (classCount y2 w (slice smp p e) k / st2.N_t) *
            (1 - classCount y2 w (slice smp p e) k / st2.N_t))
          smp hmem hy2 (slice smp p e) (fun i hi => mem_of_mem_slice hi)
          (fun k => by dsimp only; rw [classCount_congr hyR k])
          (fun k hk => by dsimp only; rw [hk]; ring)
          (fun k hk => by dsimp only; rw [hk]; ring)
        rw [hgL, hgR]
    · rw [if_neg h1, if_neg h1]
      simp only [_impurity_entropy]
      rw [hcc]
      set st2 := _compute_counts (numClasses n y2) y2 w smp s p e with hst2
      by_cases hcond : st2.N_L = 0 ∨ st2.N_R = 0
      · rw [if_pos hcond, if_pos hcond]
      · rw [if_neg hcond, if_neg hcond]
        have heL := sum_class_terms_congr
          (fun k =>
            if classCount y1 w (slice smp s p) k / st2.N_t > 0
            then -((classCount y1 w (slice smp s p) k / st2.N_t) *
              log2f (classCount y1 w (slice smp s p) k / st2.N_t)) else 0)
          (fun k =>
            if classCount y2 w (slice smp s p) k / st2.N_t > 0
            then -((classCount y2 w (slice smp s p) k / st2.N_t) *
              log2f (classCount y2 w (slice smp s p) k / st2.N_t)) else 0)
          smp hmem hy2 (slice smp s p) (fun i hi => mem_of_mem_slice hi)
          (fun k => by dsimp only; rw [classCount_congr hyL k])
          (fun k hk => by dsimp only; rw [hk]; simp)
          (fun k hk => by dsimp only; rw [hk]; simp)
        have heR := sum_class_terms_congr
          (fun k =>
            if classCount y1 w (slice smp p e) k / st2.N_t > 0
            then -((classCount y1 w (slice smp p e) k / st2.N_t) *
              log2f (classCount y1 w (slice smp p e) k / st2.N_t)) else 0)
          (fun k =>
            if classCount y2 w (slice smp p e) k / st2.N_t > 0
            then -((classCount y2 w (slice smp p e) k / st2.N_t) *
              log2f (classCount y2 w (slice smp p e) k / st2.N_t)) else 0)
          smp hmem hy2 (slice smp p e) (fun i hi => mem_of_mem_slice hi)
          (fun k => by dsimp only; rw [classCount_congr hyR k])
          (fun k hk => by dsimp only; rw [hk]; simp)
          (fun k hk => by dsimp only; rw [hk]; simp)
        rw [heL, heR]

theorem getD_mem_of_lt {l : List Nat} {k : Nat} (h : k < l.length)
    (d : Nat) : l.getD k d ∈ l := by
  rw [List.getD_eq_getElem?_getD, List.getElem?_eq_getElem h]
  exact List.getElem_mem h

theorem orderedInsert_key_congr {key1 key2 : Nat → ℚ} (a : Nat) :
    ∀ (l : List Nat), (∀ x ∈ a :: l, key1 x = key2 x) →
      List.orderedInsert (fun i1 i2 => key1 i1 ≤ key1 i2) a l =
        List.orderedInsert (fun i1 i2 => key2 i1 ≤ key2 i2) a l
  | [], _ => rfl
  | b :: t, h => by
    have ha : key1 a = key2 a := h a (List.mem_cons_self _ _)
    have hb : key1 b = key2 b := h b (List.mem_cons_of_mem _ (List.mem_cons_self _ _))
    simp only [List.orderedInsert]
    by_cases hc : key1 a ≤ key1 b
    · rw [if_pos hc, if_pos (by rw [← ha, ← hb]; exact hc)]
    · rw [if_neg hc, if_neg (by rw [← ha, ← hb]; exact hc),
        orderedInsert_key_congr a t (fun x hx => by
          rcases List.mem_cons.mp hx with rfl | hx
          · exact ha
          · exact h x (List.mem_cons_of_mem _ (List.mem_cons_of_mem _ hx)))]

theorem heapsort_key_congr {key1 key2 : Nat → ℚ} :
    ∀ (l : List Nat), (∀ x ∈ l, key1 x = key2 x) →
      heapsort key1 l = heapsort key2 l
  | [], _ => rfl
  | b :: t, h => by
    unfold heapsort
    simp only [List.insertionSort]
    have ht : List.insertionSort (fun i1 i2 => key1 i1 ≤ key1 i2) t =
        List.insertionSort (fun i1 i2 => key2 i1 ≤ key2 i2) t :=
      heapsort_key_congr t (fun x hx => h x (List.mem_cons_of_mem _ hx))
    rw [ht]
    apply orderedInsert_key_congr
    intro x hx
    rcases List.mem_cons.mp hx with rfl | hx
    · exact h x (List.mem_cons_self _ _)
    · exact h x (List.mem_cons_of_mem _
        ((List.mem_insertionSort _).mp hx))

theorem sortRange_key_congr {key1 key2 : Nat → ℚ} {l : List Nat} {s e : Nat}
    (h : ∀ x ∈ l, key1 x = key2 x) :
    sortRange key1 l s e = sortRange key2 l s e := by
  unfold sortRange
  rw [heapsort_key_congr (slice l s e)
    (fun x hx => h x (mem_of_mem_slice hx))]

theorem foldl_congr_inv {α β : Type} {f g : β → α → β} {P : β → Prop} :
    ∀ {l : List α} {b : β}, P b →
      (∀ acc x, x ∈ l → P acc → f acc x = g acc x) →
      (∀ acc x, x ∈ l → P acc → P (f acc x)) →
      l.foldl f b = l.foldl g b
  | [], _, _, _, _ => rfl
  | x :: xs, b, hP, hcong, hpres => by
    simp only [List.foldl_cons]
    rw [← hcong b x (List.mem_cons_self _ _) hP]
    exact foldl_congr_inv (hpres b x (List.mem_cons_self _ _) hP)
      (fun acc z hz hPa => hcong acc z (List.mem_cons_of_mem _ hz) hPa)
      (fun acc z hz hPa => hpres acc z (List.mem_cons_of_mem _ hz) hPa)

theorem scanPosStep_congr {impF1 impF2 : ImpurityFn} {key1 key2 : Nat → ℚ}
    {s e msl j k : Nat} {st : ScanSt}
    (hacc : k + 1 < e) (hlen : e ≤ st.samples.length)
    (hk : ∀ i ∈ st.samples, key1 i = key2 i)
    (himp : ∀ o : Stats,
      impF1 st.samples s (k + 1) e o = impF2 st.samples s (k + 1) e o) :
    scanPosStep impF1 key1 s e msl j st k =
      scanPosStep impF2 key2 s e msl j st k := by
  have hm1 : st.samples.getD k 0 ∈ st.samples :=
    getD_mem_of_lt (by omega) 0
  have hm2 : st.samples.getD (k + 1) 0 ∈ st.samples :=
    getD_mem_of_lt (by omega) 0
  have hk1 : key1 (st.samples.getD k 0) = key2 (st.samples.getD k 0) :=
    hk _ hm1
  have hk2 : key1 (st.samples.getD (k + 1) 0) =
      key2 (st.samples.getD (k + 1) 0) := hk _ hm2
  unfold scanPosStep
  simp only [hk1, hk2, himp]

theorem perm_of_outside_slice_perm {l1 l2 : List Nat} {s e : Nat}
    (hs : s ≤ e) (hlen : l1.length = l2.length)
    (hout : ∀ p, p < s ∨ e ≤ p → l1[p]? = l2[p]?)
    (hperm : List.Perm (slice l1 s e) (slice l2 s e)) :
    List.Perm l1 l2 := by
  have htake : l1.take s = l2.take s := by
    apply List.ext_getElem?
    intro q
    by_cases hq : q < s
    · rw [List.getElem?_take_of_lt hq, List.getElem?_take_of_lt hq]
      exact hout q (Or.inl hq)
    · rw [List.getElem?_take_eq_none (by omega),
        List.getElem?_take_eq_none (by omega)]
  have hdrop : l1.drop e = l2.drop e := by
    apply List.ext_getElem?
    intro q
    rw [List.getElem?_drop, List.getElem?_drop]
    exact hout (e + q) (Or.inr (by omega))
  have h1 : List.Perm (l1.take s ++ slice l1 s e ++ l1.drop e)
      (l2.take s ++ slice l2 s e ++ l2.drop e) := by
    rw [htake, hdrop]
    exact List.Perm.append_right _ (List.Perm.append_left _ hperm)
  rw [take_append_slice_append_drop l1 s e hs,
    take_append_slice_append_drop l2 s e hs] at h1
  exact h1

theorem scanFeature_samples (impF : ImpurityFn) (X : Nat → Nat → ℚ)
    (s e msl : Nat) (st : ScanSt) (j : Nat) :
    (scanFeature impF X s e msl st j).samples =
      sortRange (fun i => X i j) st.samples s e := by
  unfold scanFeature
  dsimp only
  exact foldl_inv _ (fun st2 : ScanSt => st2.samples =
      sortRange (fun i => X i j) st.samples s e) _ _
    (fun k _ st2 h2 => by
      dsimp only at h2 ⊢
      rw [scanPosStep_samples]
      exact h2) rfl

theorem scanFeature_congr {X1 X2 : Nat → Nat → ℚ} {impF1 impF2 : ImpurityFn}
    {s e msl : Nat} {st : ScanSt} (j : Nat)
    (hs : s ≤ e) (hlen : e ≤ st.samples.length)
    (hX : ∀ i ∈ st.samples, ∀ jj, X1 i jj = X2 i jj)
    (himp : ∀ smp s2 p2 e2 o, (∀ i ∈ smp, i ∈ st.samples) →
      impF1 smp s2 p2 e2 o = impF2 smp s2 p2 e2 o) :
    scanFeature impF1 X1 s e msl st j = scanFeature impF2 X2 s e msl st j := by
  unfold scanFeature
  dsimp only
  have hsort : sortRange (fun i => X1 i j) st.samples s e =
      sortRange (fun i => X2 i j) st.samples s e :=
    sortRange_key_congr (fun x hx => hX x hx j)
  rw [hsort]
  set smp1 := sortRange (fun i => X2 i j) st.samples s e with hsmp1
  have hmem1 : ∀ i ∈ smp1, i ∈ st.samples := by
    intro i hi
    exact (sortRange_perm (fun i2 => X2 i2 j) st.samples s e hs).mem_iff.mp hi
  have hlen1 : smp1.length = st.samples.length :=
    sortRange_length _ _ _ _ hs
  apply foldl_congr_inv (P := fun acc : ScanSt => acc.samples = smp1)
  · rfl
  · intro acc k hk hacc
    have hkb := List.mem_range'_1.mp hk
    apply scanPosStep_congr
    · omega
    · rw [hacc, hlen1]; exact hlen
    · intro i hi
      rw [hacc] at hi
      exact hX i (hmem1 i hi) j
    · intro o
      apply himp
      intro i hi
      rw [hacc] at hi
      exact hmem1 i hi
  · intro acc k _ hacc
    rw [scanPosStep_samples]
    exact hacc

theorem scanAll_congr {X1 X2 : Nat → Nat → ℚ} {impF1 impF2 : ImpurityFn}
    {samples0 : List Nat} {s e msl : Nat} (feats : List Nat)
    (hs : s ≤ e) (hlen : e ≤ samples0.length)
    (hX : ∀ i ∈ samples0, ∀ jj, X1 i jj = X2 i jj)
    (himp : ∀ smp s2 p2 e2 o, (∀ i ∈ smp, i ∈ samples0) →
      impF1 smp s2 p2 e2 o = impF2 smp s2 p2 e2 o) :
    scanAll impF1 X1 samples0 feats s e msl =
      scanAll impF2 X2 samples0 feats s e msl := by
  unfold scanAll
  apply foldl_congr_inv (P := fun acc : ScanSt =>
    acc.samples.length = samples0.length ∧ ∀ i ∈ acc.samples, i ∈ samples0)
  · exact ⟨rfl, fun i hi => hi⟩
  · intro acc j _ hacc
    apply scanFeature_congr j hs (by rw [hacc.1]; exact hlen)
    · intro i hi jj
      exact hX i (hacc.2 i hi) jj
    · intro smp s2 p2 e2 o hsub
      exact himp smp s2 p2 e2 o (fun i hi => hacc.2 i (hsub i hi))
  · intro acc j _ hacc
    rw [scanFeature_samples]
    constructor
    · rw [sortRange_length _ _ _ _ hs, hacc.1]
    · intro i hi
      exact hacc.2 i
        ((sortRange_perm _ acc.samples s e hs).mem_iff.mp hi)

theorem best_split_congr {X1 X2 : Nat → Nat → ℚ} {impF1 impF2 : ImpurityFn}
    {samples0 : List Nat} {s e msl : Nat} (feats : List Nat)
    (hs : s ≤ e) (hlen : e ≤ samples0.length)
    (hX : ∀ i ∈ samples0, ∀ jj, X1 i jj = X2 i jj)
    (himp : ∀ smp s2 p2 e2 o, (∀ i ∈ smp, i ∈ samples0) →
      impF1 smp s2 p2 e2 o = impF2 smp s2 p2 e2 o) :
    _best_split impF1 X1 samples0 feats s e msl =
      _best_split impF2 X2 samples0 feats s e msl := by
  unfold _best_split
  rw [scanAll_congr feats hs hlen hX himp]
  set st := scanAll impF2 X2 samples0 feats s e msl with hst
  dsimp only
  by_cases hj : st.best_j = -1
  · rw [if_pos hj, if_pos hj]
  · rw [if_neg hj, if_neg hj]
    have hSI := scanAll_inv X2 samples0 s e msl hs hlen impF2 feats
    rw [← hst] at hSI
    have hmemst : ∀ i ∈ st.samples, i ∈ samples0 := by
      intro i hi
      exact (perm_of_outside_slice_perm hs hSI.len hSI.outside
        hSI.perm).mem_iff.mp hi
    rw [sortRange_key_congr (fun x hx => hX x (hmemst x hx) _)]

theorem step_preserves_goodMem {ρ : Type}
    {shuffle : ρ → List Nat → List Nat × ρ} {impF : ImpurityFn}
    {pr : BuildParams} {st st2 : BuildState ρ} {G : Nat → Prop}
    (hP : RangeInv st ∧ ∀ i ∈ st.samples, G i)
    (h : buildStep shuffle impF pr st = some (.inl st2)) :
    RangeInv st2 ∧ ∀ i ∈ st2.samples, G i := by
  obtain ⟨E, rest, t1, hstk, _, hbr⟩ := buildStep_inl_cases h
  have hE := hP.1 E (hstk ▸ List.mem_cons_self E rest)
  rcases hbr with ⟨_, t2, _, rfl⟩ | ⟨_, fr, hfr, bs, hbs, hrest⟩
  · exact ⟨fun F hF => hP.1 F (hstk ▸ List.mem_cons_of_mem E hF), hP.2⟩
  · have hsp := best_split_spec impF pr.X st.samples
      (fr.1.take pr.max_features) E.start E.end_ pr.min_samples_leaf
      hE.1 hE.2
    rw [← hbs] at hsp
    have hmembs : ∀ i ∈ bs.1, G i := by
      intro i hi
      exact hP.2 i ((perm_of_outside_slice_perm hE.1 hsp.1 hsp.2.1
        hsp.2.2.1).mem_iff.mp hi)
    have hlen : bs.1.length = st.samples.length := hsp.1
    rcases hrest with ⟨_, t2, _, rfl⟩ | ⟨hj, t2, _, _, _, rfl⟩
    · refine ⟨?_, hmembs⟩
      intro F hF
      have hr := hP.1 F (hstk ▸ List.mem_cons_of_mem E hF)
      exact ⟨hr.1, by dsimp only; rw [hlen]; exact hr.2⟩
    · rcases hsp.2.2.2 with ⟨hjm1, _⟩ | ⟨jN, posN, hjj, hpos, h1, h2, _, _, _, _⟩
      · exact absurd hjm1 hj
      have hposn : bs.2.best_pos_t.toNat = posN := by rw [hpos]; simp
      obtain ⟨hE1, hE2⟩ := hE
      refine ⟨?_, hmembs⟩
      intro F hF
      simp only [List.mem_cons] at hF
      rcases hF with rfl | rfl | hF
      · exact ⟨by dsimp only; rw [hposn]; omega,
          by dsimp only; rw [hlen]; omega⟩
      · exact ⟨by dsimp only; rw [hposn]; omega,
          by dsimp only; rw [hposn, hlen]; omega⟩
      · have hr := hP.1 F (hstk ▸ List.mem_cons_of_mem E hF)
        exact ⟨hr.1, by dsimp only; rw [hlen]; exact hr.2⟩

theorem buildStep_XY_congr {ρ : Type} (shuffle : ρ → List Nat → List Nat × ρ)
    (log2f : ℚ → ℚ) (criterion : Nat) (pr : BuildParams)
    (X2 : Nat → Nat → ℚ) (y2 : Nat → ℚ)
    (hwn : ∀ i, 0 ≤ pr.sample_weight i)
    (hX : ∀ i, i < pr.n_samples → 0 < pr.sample_weight i →
      ∀ j, pr.X i j = X2 i j)
    (hy : ∀ i, i < pr.n_samples → 0 < pr.sample_weight i → pr.y i = y2 i)
    (st : BuildState ρ)
    (hmem : ∀ i ∈ st.samples, i < pr.n_samples ∧ 0 < pr.sample_weight i)
    (hrange : RangeInv st) :
    buildStep shuffle (impurityOf criterion (numClasses pr.n_samples pr.y)
        log2f pr.y pr.sample_weight) pr st =
      buildStep shuffle (impurityOf criterion (numClasses pr.n_samples y2)
        log2f y2 pr.sample_weight) { pr with X := X2, y := y2 } st := by
  obtain ⟨smp, fts, g, tr, stk, nt, lv, sp⟩ := st
  cases stk with
  | nil => rfl
  | cons E rest =>
    have hE := hrange E (List.mem_cons_self E rest)
    have hmem2 : ∀ i ∈ smp, i < pr.n_samples ∧ 0 < pr.sample_weight i := hmem
    have hbs : ∀ featlist : List Nat,
        _best_split (impurityOf criterion (numClasses pr.n_samples pr.y)
          log2f pr.y pr.sample_weight) pr.X smp featlist
          E.start E.end_ pr.min_samples_leaf =
        _best_split (impurityOf criterion (numClasses pr.n_samples y2)
          log2f y2 pr.sample_weight) X2 smp featlist
          E.start E.end_ pr.min_samples_leaf := by
      intro featlist
      apply best_split_congr featlist hE.1 hE.2
      · intro i hi jj
        exact hX i (hmem2 i hi).1 (hmem2 i hi).2 jj
      · intro smp2 s2 p2 e2 o hsub
        exact impurityOf_congr criterion log2f pr.n_samples pr.y y2
          pr.sample_weight hwn smp2 (fun i hi => hmem2 i (hsub i hi))
          (fun i hi => hy i (hmem2 i (hsub i hi)).1 (hmem2 i (hsub i hi)).2)
          s2 p2 e2 o
    unfold buildStep
    dsimp only
    rw [hbs]

theorem buildLoop_XY_congr {ρ : Type} (shuffle : ρ → List Nat → List Nat × ρ)
    (log2f : ℚ → ℚ) (criterion : Nat) (pr : BuildParams)
    (X2 : Nat → Nat → ℚ) (y2 : Nat → ℚ)
    (hwn : ∀ i, 0 ≤ pr.sample_weight i)
    (hX : ∀ i, i < pr.n_samples → 0 < pr.sample_weight i →
      ∀ j, pr.X i j = X2 i j)
    (hy : ∀ i, i < pr.n_samples → 0 < pr.sample_weight i → pr.y i = y2 i) :
    ∀ (fuel : Nat) (st : BuildState ρ),
      RangeInv st →
      (∀ i ∈ st.samples, i < pr.n_samples ∧ 0 < pr.sample_weight i) →
      buildLoop shuffle (impurityOf criterion (numClasses pr.n_samples pr.y)
          log2f pr.y pr.sample_weight) pr fuel st =
        buildLoop shuffle (impurityOf criterion (numClasses pr.n_samples y2)
          log2f y2 pr.sample_weight) { pr with X := X2, y := y2 } fuel st
  | 0, _, _, _ => rfl
  | fuel + 1, st, hrange, hmem => by
    unfold buildLoop
    rw [← buildStep_XY_congr shuffle log2f criterion pr X2 y2 hwn hX hy st
      hmem hrange]
    cases hbs : buildStep shuffle
        (impurityOf criterion (numClasses pr.n_samples pr.y) log2f pr.y
          pr.sample_weight) pr st with
    | none => rfl
    | some r =>
      cases r with
      | inr s => rfl
      | inl s2 =>
        have hpres := step_preserves_goodMem
          (G := fun i => i < pr.n_samples ∧ 0 < pr.sample_weight i)
          ⟨hrange, hmem⟩ hbs
        exact buildLoop_XY_congr shuffle log2f criterion pr X2 y2 hwn hX hy
          fuel s2 hpres.1 hpres.2

/-- C9 — Zero-weight samples are removed from the sample set before building
begins, and they contribute to no statistic of the build: the initial sample
permutation contains exactly the positive-weight row indices, and (for
non-negative weights) replacing the feature row and target of every
non-positive-weight sample by anything at all leaves the finalized tree
unchanged.  Their presence raises no error: both builds succeed or fail
together. -/
theorem zero_weight_rows_inert {ρ : Type}
    (shuffle : ρ → List Nat → List Nat × ρ) (rng0 : ρ) (log2f : ℚ → ℚ)
    (criterion : Nat) (pr : BuildParams) (X2 : Nat → Nat → ℚ) (y2 : Nat → ℚ)
    (hwn : ∀ i, 0 ≤ pr.sample_weight i)
    (hX : ∀ i, i < pr.n_samples → 0 < pr.sample_weight i →
      ∀ j, pr.X i j = X2 i j)
    (hy : ∀ i, i < pr.n_samples → 0 < pr.sample_weight i → pr.y i = y2 i) :
    (∀ i, i ∈ initSamples pr.n_samples pr.sample_weight ↔
      (i < pr.n_samples ∧ 0 < pr.sample_weight i)) ∧
    _build_tree shuffle rng0 log2f criterion pr =
      _build_tree shuffle rng0 log2f criterion
        { pr with X := X2, y := y2 } := by
  refine ⟨fun i => mem_initSamples, ?_⟩
  unfold _build_tree
  dsimp only
  rw [buildLoop_XY_congr shuffle log2f criterion pr X2 y2 hwn hX hy
    (2 * (initSamples pr.n_samples pr.sample_weight).length + 2)
    (initState rng0 pr)
    (by
      intro F hF
      simp only [initState, List.mem_cons, List.not_mem_nil, or_false] at hF
      subst hF
      exact ⟨Nat.zero_le _, le_refl _⟩)
    (by
      intro i hi
      exact mem_initSamples.mp hi)]
  rfl

/-! ### C7: strict improvement, first-found wins ties -/

/-- One admissible candidate position of the scan: its impurity, threshold,
feature and split position. -/
structure Cand where
  imp : ℚ
  thresh : ℚ
  j : Int
  pos : Int

/-- The candidate the scan evaluates at position `k + 1` (or `none` if the
position is rejected by the `min_samples_leaf` or tied-values check), over an
already-sorted samples array. -/
def scanPosCand (impF : ImpurityFn) (key : Nat → ℚ) (s e msl j : Nat)
    (samples : List Nat) (k : Nat) : Option Cand :=
  let pos := k + 1
  let nl := pos - s
  let nr := (e - s) - nl
  if nr < msl ∨ nl < msl then none
  else
    let vk := key (samples.getD k 0)
    let vk1 := key (samples.getD (k + 1) 0)
    let d := vk1 - vk
    if d = 0 then none
    else some ⟨(impF samples s pos e ⟨0, 0, 0, 0, 0⟩).1, d / 2 + vk,
      (j : Int), (pos : Int)⟩

/-- The candidates one feature contributes, in scan order. -/
def featCands (impF : ImpurityFn) (X : Nat → Nat → ℚ) (s e msl : Nat)
    (samples : List Nat) (j : Nat) : List Cand :=
  (List.range' s (e - 1 - s)).filterMap
    (scanPosCand impF (fun i => X i j) s e msl j
      (sortRange (fun i => X i j) samples s e))

/-- All candidates of one node's split search, in scan order across features
and positions, replaying the scan's in-place re-sorting of the samples
array. -/
def scanCands (impF : ImpurityFn) (X : Nat → Nat → ℚ)
    (samples feats : List Nat) (s e msl : Nat) : List Cand :=
  (feats.foldl (fun (acc : List Cand × List Nat) j =>
    (acc.1 ++ featCands impF X s e msl acc.2 j,
     sortRange (fun i => X i j) acc.2 s e)) ([], samples)).1

/-- The best-candidate components of a scan state. -/
def bestOf (st : ScanSt) : ℚ × ℚ × Int × Int :=
  (st.best_imp, st.best_thresh, st.best_j, st.best_pos_t)

/-- The tracked-best update rule of the scan: replace only on a strictly
lower impurity. -/
def updBest (b : ℚ × ℚ × Int × Int) (c : Cand) : ℚ × ℚ × Int × Int :=
  if c.imp < b.1 then (c.imp, c.thresh, c.j, c.pos) else b

def updBestOpt (b : ℚ × ℚ × Int × Int) (c : Option Cand) : ℚ × ℚ × Int × Int :=
  match c with
  | none => b
  | some c2 => updBest b c2

theorem scanPosStep_bestOf {impF : ImpurityFn} {key : Nat → ℚ}
    {s e msl j : Nat} {st : ScanSt} {k : Nat}
    (hind : ∀ smp s2 p2 e2 o1 o2,
      (impF smp s2 p2 e2 o1).1 = (impF smp s2 p2 e2 o2).1) :
    bestOf (scanPosStep impF key s e msl j st k) =
      updBestOpt (bestOf st) (scanPosCand impF key s e msl j st.samples k) := by
  unfold scanPosStep scanPosCand
  dsimp only
  split
  · rfl
  · split
    · rfl
    · have himp : (impF st.samples s (k + 1) e st.out).1 =
          (impF st.samples s (k + 1) e ⟨0, 0, 0, 0, 0⟩).1 :=
        hind st.samples s (k + 1) e st.out ⟨0, 0, 0, 0, 0⟩
      unfold updBestOpt updBest bestOf
      dsimp only
      rw [himp]
      split
      · rfl
      · rfl

theorem foldl_updBestOpt_filterMap {α : Type} (f : α → Option Cand) :
    ∀ (l : List α) (b : ℚ × ℚ × Int × Int),
      (l.filterMap f).foldl updBest b =
        l.foldl (fun b2 a => updBestOpt b2 (f a)) b
  | [], _ => rfl
  | a :: t, b => by
    cases hfa : f a with
    | none =>
      rw [List.filterMap_cons_none hfa, List.foldl_cons]
      unfold updBestOpt
      rw [hfa]
      exact foldl_updBestOpt_filterMap f t b
    | some c =>
      rw [List.filterMap_cons_some hfa, List.foldl_cons, List.foldl_cons]
      unfold updBestOpt
      rw [hfa]
      exact foldl_updBestOpt_filterMap f t _

theorem scanFeature_bestOf {impF : ImpurityFn} {X : Nat → Nat → ℚ}
    {s e msl : Nat} (st : ScanSt) (j : Nat)
    (hind : ∀ smp s2 p2 e2 o1 o2,
      (impF smp s2 p2 e2 o1).1 = (impF smp s2 p2 e2 o2).1) :
    bestOf (scanFeature impF X s e msl st j) =
      (featCands impF X s e msl st.samples j).foldl updBest (bestOf st) := by
  unfold scanFeature featCands
  dsimp only
  rw [foldl_updBestOpt_filterMap]
  set smp1 := sortRange (fun i => X i j) st.samples s e with hsmp1
  have hgen : ∀ (l : List Nat) (st2 : ScanSt), st2.samples = smp1 →
      bestOf (l.foldl (scanPosStep impF (fun i => X i j) s e msl j) st2) =
        l.foldl (fun b2 k => updBestOpt b2
          (scanPosCand impF (fun i => X i j) s e msl j smp1 k))
          (bestOf st2) := by
    intro l
    induction l with
    | nil => intro st2 _; rfl
    | cons k t ih =>
      intro st2 hsm
      rw [List.foldl_cons, List.foldl_cons]
      rw [ih _ (by rw [scanPosStep_samples]; exact hsm)]
      rw [scanPosStep_bestOf hind, hsm]
  exact hgen _ _ rfl

theorem scanAll_bestOf {impF : ImpurityFn} {X : Nat → Nat → ℚ}
    {samples feats : List Nat} {s e msl : Nat}
    (hind : ∀ smp s2 p2 e2 o1 o2,
      (impF smp s2 p2 e2 o1).1 = (impF smp s2 p2 e2 o2).1) :
    bestOf (scanAll impF X samples feats s e msl) =
      (scanCands impF X samples feats s e msl).foldl updBest
        (DOUBLE_MAX, 0, -1, -1) := by
  unfold scanAll scanCands
  suffices hgen : ∀ (fl : List Nat) (st2 : ScanSt) (acc : List Cand)
      (b : ℚ × ℚ × Int × Int), bestOf st2 = acc.foldl updBest b →
      bestOf (fl.foldl (scanFeature impF X s e msl) st2) =
        ((fl.foldl (fun (acc2 : List Cand × List Nat) j =>
          (acc2.1 ++ featCands impF X s e msl acc2.2 j,
           sortRange (fun i => X i j) acc2.2 s e)) (acc, st2.samples)).1).foldl
          updBest b by
    exact hgen feats _ [] (DOUBLE_MAX, 0, -1, -1) rfl
  intro fl
  induction fl with
  | nil =>
    intro st2 acc b hb
    simpa using hb
  | cons j t ih =>
    intro st2 acc b hb
    rw [List.foldl_cons, List.foldl_cons]
    dsimp only
    rw [show sortRange (fun i => X i j) st2.samples s e =
        (scanFeature impF X s e msl st2 j).samples from
      (scanFeature_samples impF X s e msl st2 j).symm]
    refine ih _ _ _ ?_
    rw [scanFeature_bestOf st2 j hind, hb, List.foldl_append]

/-- The impurity component of `_impurity_mse` does not depend on the incoming
`out` buffer (the buffer is only read back by the caller). -/
theorem mse_fst_out_indep (y w : Nat → ℚ) :
    ∀ smp s2 p2 e2 o1 o2,
      (_impurity_mse y w smp s2 p2 e2 o1).1 =
        (_impurity_mse y w smp s2 p2 e2 o2).1 := by
  intro smp s2 p2 e2 o1 o2
  unfold _impurity_mse
  dsimp only
  split
  · rfl
  · split
    · rfl
    · rfl

/-- A left fold of the strict-improvement update keeps the initial best
whenever no candidate strictly beats it, and otherwise ends at the first
candidate of strictly minimal impurity: all earlier candidates are strictly
worse, all later ones no better. -/
theorem foldl_updBest_firstMin :
    ∀ (cands : List Cand) (b : ℚ × ℚ × Int × Int),
      (cands.foldl updBest b = b ∧ ∀ c ∈ cands, b.1 ≤ c.imp) ∨
      (∃ pre c post, cands = pre ++ c :: post ∧ c.imp < b.1 ∧
        (∀ p ∈ pre, c.imp < p.imp) ∧ (∀ q ∈ post, c.imp ≤ q.imp) ∧
        cands.foldl updBest b = (c.imp, c.thresh, c.j, c.pos)) := by
  intro cands
  induction cands with
  | nil =>
    intro b
    exact Or.inl ⟨rfl, by intro c hc; cases hc⟩
  | cons c0 t ih =>
    intro b
    rw [List.foldl_cons]
    by_cases hlt : c0.imp < b.1
    · have hupd : updBest b c0 = (c0.imp, c0.thresh, c0.j, c0.pos) := by
        unfold updBest
        rw [if_pos hlt]
      rw [hupd]
      rcases ih (c0.imp, c0.thresh, c0.j, c0.pos) with
        ⟨heq, hall⟩ | ⟨pre, c, post, hdec, hlt2, hpre, hpost, heq⟩
      · refine Or.inr ⟨[], c0, t, rfl, hlt, ?_, ?_, heq⟩
        · intro p hp
          cases hp
        · intro q hq
          exact hall q hq
      · refine Or.inr ⟨c0 :: pre, c, post, by rw [hdec, List.cons_append],
          lt_trans hlt2 hlt, ?_, hpost, heq⟩
        intro p hp
        rcases List.mem_cons.mp hp with h | h
        · rw [h]
          exact hlt2
        · exact hpre p h
    · have hupd : updBest b c0 = b := by
        unfold updBest
        rw [if_neg hlt]
      rw [hupd]
      rcases ih b with
        ⟨heq, hall⟩ | ⟨pre, c, post, hdec, hlt2, hpre, hpost, heq⟩
      · refine Or.inl ⟨heq, ?_⟩
        intro c hc
        rcases List.mem_cons.mp hc with h | h
        · rw [h]
          exact le_of_not_lt hlt
        · exact hall c h
      · refine Or.inr ⟨c0 :: pre, c, post, by rw [hdec, List.cons_append],
          hlt2, ?_, hpost, heq⟩
        intro p hp
        rcases List.mem_cons.mp hp with h | h
        · rw [h]
          exact lt_of_lt_of_le hlt2 (le_of_not_lt hlt)
        · exact hpre p h

/-- C7: during one node's split search the tracked best candidate is replaced
only when a position's impurity is strictly lower than the current best, so
among candidates of exactly equal impurity the first one encountered in scan
order (features in iteration order, positions left to right) is kept.
Precisely: either no candidate strictly beats the `DOUBLE_MAX` sentinel and
the scan keeps its initial state (in particular `best_j = -1`, no split), or
the scan's tracked best equals the first candidate of strictly minimal
impurity — every earlier candidate in scan order is strictly worse, every
later one is no better — and `_best_split` reports that candidate's
threshold, feature and position.  The hypothesis says the impurity value the
criterion computes does not depend on the incoming scratch `out` buffer, as
holds for the source's criteria. -/
theorem split_search_first_strict_min (impF : ImpurityFn) (X : Nat → Nat → ℚ)
    (samples feats : List Nat) (s e msl : Nat)
    (hind : ∀ smp s2 p2 e2 o1 o2,
      (impF smp s2 p2 e2 o1).1 = (impF smp s2 p2 e2 o2).1) :
    (bestOf (scanAll impF X samples feats s e msl) = (DOUBLE_MAX, 0, -1, -1) ∧
      ∀ c ∈ scanCands impF X samples feats s e msl, DOUBLE_MAX ≤ c.imp) ∨
    (∃ pre c post,
      scanCands impF X samples feats s e msl = pre ++ c :: post ∧
      c.imp < DOUBLE_MAX ∧
      (∀ p ∈ pre, c.imp < p.imp) ∧
      (∀ q ∈ post, c.imp ≤ q.imp) ∧
      bestOf (scanAll impF X samples feats s e msl) =
        (c.imp, c.thresh, c.j, c.pos) ∧
      (_best_split impF X samples feats s e msl).2.best_thresh = c.thresh ∧
      (_best_split impF X samples feats s e msl).2.best_j = c.j ∧
      (_best_split impF X samples feats s e msl).2.best_pos_t = c.pos) := by
  have hb := @scanAll_bestOf impF X samples feats s e msl hind
  rcases foldl_updBest_firstMin (scanCands impF X samples feats s e msl)
      (DOUBLE_MAX, 0, -1, -1) with
    ⟨heq, hall⟩ | ⟨pre, c, post, hdec, hlt, hpre, hpost, heq⟩
  · exact Or.inl ⟨by rw [hb, heq], hall⟩
  · have h3 : bestOf (scanAll impF X samples feats s e msl) =
        (c.imp, c.thresh, c.j, c.pos) := by
      rw [hb, heq]
    have h3b := h3
    unfold bestOf at h3b
    rw [Prod.mk.injEq, Prod.mk.injEq, Prod.mk.injEq] at h3b
    obtain ⟨h4, h5, h6, h7⟩ := h3b
    refine Or.inr ⟨pre, c, post, hdec, hlt, hpre, hpost, h3, ?_, ?_, ?_⟩
    · unfold _best_split
      dsimp only
      exact h5
    · unfold _best_split
      dsimp only
      exact h6
    · unfold _best_split
      dsimp only
      exact h7

/-- A two-row, two-feature regression instance on which both features offer
the same admissible split with exactly equal impurity. -/
def c7X : Nat → Nat → ℚ := fun i _ => (i : ℚ)

def c7y : Nat → ℚ := fun i => (i : ℚ)

def c7w : Nat → ℚ := fun _ => 1

theorem split_search_first_strict_min_witness :
    (bestOf (scanAll (_impurity_mse c7y c7w) c7X [0, 1] [0, 1] 0 2 1) =
        (DOUBLE_MAX, 0, -1, -1) ∧
      ∀ c ∈ scanCands (_impurity_mse c7y c7w) c7X [0, 1] [0, 1] 0 2 1,
        DOUBLE_MAX ≤ c.imp) ∨
    (∃ pre c post,
      scanCands (_impurity_mse c7y c7w) c7X [0, 1] [0, 1] 0 2 1 =
        pre ++ c :: post ∧
      c.imp < DOUBLE_MAX ∧
      (∀ p ∈ pre, c.imp < p.imp) ∧
      (∀ q ∈ post, c.imp ≤ q.imp) ∧
      bestOf (scanAll (_impurity_mse c7y c7w) c7X [0, 1] [0, 1] 0 2 1) =
        (c.imp, c.thresh, c.j, c.pos) ∧
      (_best_split (_impurity_mse c7y c7w) c7X [0, 1] [0, 1]
        0 2 1).2.best_thresh = c.thresh ∧
      (_best_split (_impurity_mse c7y c7w) c7X [0, 1] [0, 1]
        0 2 1).2.best_j = c.j ∧
      (_best_split (_impurity_mse c7y c7w) c7X [0, 1] [0, 1]
        0 2 1).2.best_pos_t = c.pos) :=
  split_search_first_strict_min (_impurity_mse c7y c7w) c7X [0, 1] [0, 1]
    0 2 1 (mse_fst_out_indep c7y c7w)

/-! ### C5: training rows routed into a leaf are routed back by the predictor

The build threads each pending range through the tree under construction; we
show every committed leaf's range re-descends to that leaf.  `Arrives` is the
routing skeleton of `_apply` over the growing node store: it ignores the
leaf test at intermediate nodes (their sibling slots may still be unfilled
while the other subtree is pending) and is therefore stable under the two
mutations the loop performs, patching a virgin child slot and appending a
node at `ptr`. -/

theorem getD_set_lt {α : Type} (l : List α) (n : Nat) (a d : α)
    (h : n < l.length) : (l.set n a).getD n d = a := by
  induction l generalizing n with
  | nil => simp at h
  | cons b t ih =>
    cases n with
    | zero => rfl
    | succ n2 =>
      simp only [List.set_cons_succ, List.getD_cons_succ]
      exact ih n2 (by simpa using h)

theorem getD_set_ne {α : Type} (l : List α) (n m : Nat) (a d : α)
    (h : n ≠ m) : (l.set n a).getD m d = l.getD m d := by
  induction l generalizing n m with
  | nil => simp [List.getD]
  | cons b t ih =>
    cases n with
    | zero =>
      cases m with
      | zero => exact absurd rfl h
      | succ m2 => rfl
    | succ n2 =>
      cases m with
      | zero => rfl
      | succ m2 =>
        simp only [List.set_cons_succ, List.getD_cons_succ]
        exact ih n2 m2 (by omega)

theorem getElem?_eq_some_getD {α : Type} (l : List α) (n : Nat) (d : α)
    (h : n < l.length) : l[n]? = some (l.getD n d) := by
  rw [List.getD_eq_getElem?_getD, List.getElem?_eq_getElem h]
  rfl

theorem take_get?_getD {α : Type} (l : List α) (k n : Nat) (d : α)
    (hn : n < k) (hl : n < l.length) :
    (l.take k).get? n = some (l.getD n d) := by
  rw [List.get?_eq_getElem?, List.getElem?_take_of_lt hn,
    getElem?_eq_some_getD l n d hl]

theorem add_terminal_parts {t1 t2 : TreeSt} {v : ℚ}
    (h : t1.add_terminal_node v = some t2) :
    t1.ptr < t1.capacity ∧ t2.capacity = t1.capacity ∧ t2.ptr = t1.ptr + 1 ∧
    t2.threshold = t1.threshold ∧ t2.feature = t1.feature ∧
    t2.children_left = t1.children_left ∧
    t2.children_right = t1.children_right := by
  unfold TreeSt.add_terminal_node at h
  split at h
  · rename_i hlt
    simp only [Option.some.injEq] at h
    exact ⟨hlt, by rw [← h], by rw [← h], by rw [← h], by rw [← h],
      by rw [← h], by rw [← h]⟩
  · cases h

theorem add_node_parts {t1 t2 : TreeSt} {th : ℚ} {f : Int} {v : ℚ}
    (h : t1.add_node th f v = some t2) :
    t1.ptr < t1.capacity ∧ t2.capacity = t1.capacity ∧ t2.ptr = t1.ptr + 1 ∧
    t2.threshold = t1.threshold.set t1.ptr th ∧
    t2.feature = t1.feature.set t1.ptr f ∧
    t2.children_left = t1.children_left ∧
    t2.children_right = t1.children_right := by
  unfold TreeSt.add_node at h
  split at h
  · rename_i hlt
    simp only [Option.some.injEq] at h
    exact ⟨hlt, by rw [← h], by rw [← h], by rw [← h], by rw [← h],
      by rw [← h], by rw [← h]⟩
  · cases h

theorem setChild_parts {t t1 : TreeSt} {b : Bool} {par : Nat} {c : Int}
    (h : TreeSt.setChild t b par c = some t1) :
    par < t.capacity ∧ t1.capacity = t.capacity ∧ t1.ptr = t.ptr ∧
    t1.threshold = t.threshold ∧ t1.feature = t.feature ∧
    t1.children_left.length = t.children_left.length ∧
    t1.children_right.length = t.children_right.length ∧
    (∀ n b2, ¬ (n = par ∧ b2 = b) → slotAt t1 n b2 = slotAt t n b2) ∧
    (par < t.children_left.length → par < t.children_right.length →
      slotAt t1 par b = c) := by
  unfold TreeSt.setChild at h
  split at h
  · rename_i hlt
    simp only [Option.some.injEq] at h
    cases b with
    | true =>
      simp only [if_pos] at h
      refine ⟨hlt, by rw [← h], by rw [← h], by rw [← h], by rw [← h],
        by rw [← h]; simp [List.length_set], by rw [← h], ?_, ?_⟩
      · intro n b2 hne
        cases b2 with
        | true =>
          have hnp : n ≠ par := fun he => hne ⟨he, rfl⟩
          rw [← h]
          show (t.children_left.set par c).getD n TREE_LEAF =
            t.children_left.getD n TREE_LEAF
          exact getD_set_ne _ _ _ _ _ (fun he => hnp he.symm)
        | false =>
          rw [← h]
          rfl
      · intro hl _
        rw [← h]
        show (t.children_left.set par c).getD par TREE_LEAF = c
        exact getD_set_lt _ _ _ _ hl
    | false =>
      simp only [Bool.false_eq_true, if_neg, ite_false] at h
      refine ⟨hlt, by rw [← h], by rw [← h], by rw [← h], by rw [← h],
        by rw [← h], by rw [← h]; simp [List.length_set], ?_, ?_⟩
      · intro n b2 hne
        cases b2 with
        | false =>
          have hnp : n ≠ par := fun he => hne ⟨he, rfl⟩
          rw [← h]
          show (t.children_right.set par c).getD n TREE_LEAF =
            t.children_right.getD n TREE_LEAF
          exact getD_set_ne _ _ _ _ _ (fun he => hnp he.symm)
        | true =>
          rw [← h]
          rfl
      · intro _ hr
        rw [← h]
        show (t.children_right.set par c).getD par TREE_LEAF = c
        exact getD_set_lt _ _ _ _ hr
  · cases h

/-- The routing skeleton of `_apply` over a node store: from node `n`, the
query `x` reaches node `k` by following filled child slots, comparing the
stored feature value against the stored threshold at each step exactly as the
predictor does. -/
inductive Arrives (t : TreeSt) (x : Nat → ℚ) : Nat → Nat → Prop where
  | refl (n : Nat) : Arrives t x n n
  | stepL (n m k : Nat) (hcl : clAt t n = (m : Int)) (hm : 0 < m)
      (hle : x (featAt t n).toNat ≤ thrAt t n)
      (h2 : Arrives t x m k) : Arrives t x n k
  | stepR (n m k : Nat) (hcr : crAt t n = (m : Int)) (hm : 0 < m)
      (hnle : ¬ x (featAt t n).toNat ≤ thrAt t n)
      (h2 : Arrives t x m k) : Arrives t x n k

/-- Every filled child slot points strictly forward, to a node strictly
between its owner and `N`. -/
def SlotsOrd (t : TreeSt) (N : Nat) : Prop :=
  ∀ n b, slotAt t n b = TREE_LEAF ∨
    ∃ m : Nat, 0 < m ∧ slotAt t n b = (m : Int) ∧ n < m ∧ m < N

theorem slotsOrd_pos {t : TreeSt} {N n : Nat} {b : Bool} {m : Nat}
    (hsv : SlotsOrd t N) (h : slotAt t n b = (m : Int)) (hm : 0 < m) :
    n < m ∧ m < N := by
  rcases hsv n b with h2 | ⟨m2, hm2, hs2, hlt2, hlt3⟩
  · rw [h] at h2
    unfold TREE_LEAF at h2
    omega
  · rw [h] at hs2
    have : m = m2 := by exact_mod_cast hs2
    omega

theorem arrives_mono {t t2 : TreeSt} {x : Nat → ℚ} {N : Nat}
    (hsv : SlotsOrd t N)
    (hft : ∀ n, n < N → featAt t2 n = featAt t n)
    (hth : ∀ n, n < N → thrAt t2 n = thrAt t n)
    (hsl : ∀ n b (m : Nat), slotAt t n b = (m : Int) → 0 < m →
      slotAt t2 n b = (m : Int))
    {n k : Nat} (har : Arrives t x n k) : Arrives t2 x n k := by
  induction har with
  | refl n => exact Arrives.refl n
  | stepL n m k hcl hm hle _ ih =>
    have hb := slotsOrd_pos (b := true) hsv hcl hm
    have hn : n < N := by omega
    exact Arrives.stepL n m k (hsl n true m hcl hm) hm
      (by rw [hft n hn, hth n hn]; exact hle) ih
  | stepR n m k hcr hm hnle _ ih =>
    have hb := slotsOrd_pos (b := false) hsv hcr hm
    have hn : n < N := by omega
    exact Arrives.stepR n m k (hsl n false m hcr hm) hm
      (by rw [hft n hn, hth n hn]; exact hnle) ih

theorem arrives_le {t : TreeSt} {x : Nat → ℚ} {N : Nat}
    (hsv : SlotsOrd t N) {n k : Nat} (h : Arrives t x n k) :
    n ≤ k ∧ (n < N → k < N) := by
  induction h with
  | refl n => exact ⟨le_refl n, fun h2 => h2⟩
  | stepL n m k hcl hm _ _ ih =>
    have hb := slotsOrd_pos (b := true) hsv hcl hm
    exact ⟨by omega, fun _ => ih.2 (by omega)⟩
  | stepR n m k hcr hm _ _ ih =>
    have hb := slotsOrd_pos (b := false) hsv hcr hm
    exact ⟨by omega, fun _ => ih.2 (by omega)⟩

theorem applyFrom_leaf (feature : List Int) (threshold : List ℚ)
    (cl cr : List Int) (x : Nat → ℚ) (f n : Nat)
    (h : cl.get? n = some TREE_LEAF) :
    applyFrom feature threshold cl cr x (f + 1) n = some n := by
  unfold applyFrom
  rw [h]
  simp

theorem applyFrom_stepL (feature : List Int) (threshold : List ℚ)
    (cl cr : List Int) (x : Nat → ℚ) (f n : Nat) (c fe : Int) (th : ℚ)
    (hcl : cl.get? n = some c) (hne : c ≠ TREE_LEAF)
    (hf : feature.get? n = some fe) (hth : threshold.get? n = some th)
    (hle : x fe.toNat ≤ th) :
    applyFrom feature threshold cl cr x (f + 1) n =
      applyFrom feature threshold cl cr x f c.toNat := by
  conv_lhs => unfold applyFrom
  rw [hcl]
  dsimp only
  rw [if_neg hne, hf, hth]
  dsimp only
  rw [if_pos hle]

theorem applyFrom_stepR (feature : List Int) (threshold : List ℚ)
    (cl cr : List Int) (x : Nat → ℚ) (f n : Nat) (c fe c2 : Int) (th : ℚ)
    (hcl : cl.get? n = some c) (hne : c ≠ TREE_LEAF)
    (hf : feature.get? n = some fe) (hth : threshold.get? n = some th)
    (hnle : ¬ x fe.toNat ≤ th) (hcr : cr.get? n = some c2) :
    applyFrom feature threshold cl cr x (f + 1) n =
      applyFrom feature threshold cl cr x f c2.toNat := by
  conv_lhs => unfold applyFrom
  rw [hcl]
  dsimp only
  rw [if_neg hne, hf, hth]
  dsimp only
  rw [if_neg hnle, hcr]

/-- The bridge from the routing skeleton to the predictor: in a store whose
slots all point forward and below `ptr`, and in which a node with a filled
right slot also has a filled left slot (true of a finished build), `_apply`'s
descent on the finalized arrays follows an `Arrives` path ending at a node
whose left slot is empty, and stops exactly there. -/
theorem arrives_applyFrom {t : TreeSt} {x : Nat → ℚ}
    (hsv : SlotsOrd t t.ptr)
    (hlenT : t.threshold.length = t.capacity)
    (hlenF : t.feature.length = t.capacity)
    (hlenL : t.children_left.length = t.capacity)
    (hlenR : t.children_right.length = t.capacity)
    (hcap : t.ptr ≤ t.capacity)
    (hfull : ∀ n (m : Nat), crAt t n = (m : Int) → 0 < m →
      clAt t n ≠ TREE_LEAF) :
    ∀ (n k : Nat), Arrives t x n k → n < t.ptr → clAt t k = TREE_LEAF →
      ∀ fuel, k < n + fuel →
      applyFrom t.finalize.feature t.finalize.threshold
        t.finalize.children_left t.finalize.children_right x fuel n =
          some k := by
  intro n k har
  induction har with
  | refl n =>
    intro hn hk fuel hfuel
    cases fuel with
    | zero => omega
    | succ f =>
      apply applyFrom_leaf
      show (t.children_left.take (t.ptr + 1)).get? n = some TREE_LEAF
      rw [take_get?_getD t.children_left (t.ptr + 1) n TREE_LEAF (by omega)
        (by omega)]
      exact congrArg some hk
  | stepL n m k hcl hm hle h2 ih =>
    intro hn hk fuel hfuel
    have hb := slotsOrd_pos (b := true) hsv hcl hm
    have hmk := (arrives_le hsv h2).1
    cases fuel with
    | zero => omega
    | succ f =>
      rw [applyFrom_stepL _ _ _ _ x f n ((m : Nat) : Int) (featAt t n)
        (thrAt t n)
        (by
          show (t.children_left.take (t.ptr + 1)).get? n = _
          rw [take_get?_getD t.children_left (t.ptr + 1) n TREE_LEAF
            (by omega) (by omega)]
          exact congrArg some hcl)
        (by unfold TREE_LEAF; omega)
        (by
          show (t.feature.take (t.ptr + 1)).get? n = _
          exact take_get?_getD t.feature (t.ptr + 1) n UNDEFINED (by omega)
            (by omega))
        (by
          show (t.threshold.take (t.ptr + 1)).get? n = _
          exact take_get?_getD t.threshold (t.ptr + 1) n ((-2 : Int) : ℚ)
            (by omega) (by omega))
        hle]
      rw [show ((m : Nat) : Int).toNat = m from by simp]
      exact ih (by omega) hk f (by omega)
  | stepR n m k hcr hm hnle h2 ih =>
    intro hn hk fuel hfuel
    have hb := slotsOrd_pos (b := false) hsv hcr hm
    have hmk := (arrives_le hsv h2).1
    cases fuel with
    | zero => omega
    | succ f =>
      rw [applyFrom_stepR _ _ _ _ x f n (clAt t n) (featAt t n)
        ((m : Nat) : Int) (thrAt t n)
        (by
          show (t.children_left.take (t.ptr + 1)).get? n = _
          exact take_get?_getD t.children_left (t.ptr + 1) n TREE_LEAF
            (by omega) (by omega))
        (hfull n m hcr hm)
        (by
          show (t.feature.take (t.ptr + 1)).get? n = _
          exact take_get?_getD t.feature (t.ptr + 1) n UNDEFINED (by omega)
            (by omega))
        (by
          show (t.threshold.take (t.ptr + 1)).get? n = _
          exact take_get?_getD t.threshold (t.ptr + 1) n ((-2 : Int) : ℚ)
            (by omega) (by omega))
        hnle
        (by
          show (t.children_right.take (t.ptr + 1)).get? n = _
          rw [take_get?_getD t.children_right (t.ptr + 1) n TREE_LEAF
            (by omega) (by omega)]
          exact congrArg some hcr)]
      rw [show ((m : Nat) : Int).toNat = m from by simp]
      exact ih (by omega) hk f (by omega)

theorem mem_slice_of_subrange {l : List Nat} {a b a2 b2 i : Nat}
    (h : i ∈ slice l a b) (ha : a2 ≤ a) (hb : b ≤ b2) : i ∈ slice l a2 b2 := by
  rcases mem_slice_iff.mp h with ⟨q, hq, hget⟩
  refine mem_slice_iff.mpr ⟨a + q - a2, by omega, ?_⟩
  rw [show a2 + (a + q - a2) = a + q from by omega]
  exact hget

theorem arrives_trans {t : TreeSt} {x : Nat → ℚ} {a b c : Nat}
    (h1 : Arrives t x a b) (h2 : Arrives t x b c) : Arrives t x a c := by
  induction h1 with
  | refl n => exact h2
  | stepL n m k hcl hm hle _ ih => exact Arrives.stepL n m c hcl hm hle (ih h2)
  | stepR n m k hcr hm hnle _ ih => exact Arrives.stepR n m c hcr hm hnle (ih h2)

theorem getD_replicate {α : Type} (c n : Nat) (a : α) :
    (List.replicate c a).getD n a = a := by
  rw [List.getD_eq_getElem?_getD, List.getElem?_replicate]
  split <;> rfl

/-- The loop invariant of `_build_tree` carrying leaf self-consistency: the
store's arrays keep their capacity, filled child slots point strictly
forward and below `ptr`, slots at or above `ptr` are virgin, pending entries
and recorded leaves own well-formed pairwise-disjoint ranges, each pending
entry's `(parent, side)` slot is virgin and unique, every virgin slot below
`ptr` belongs to a recorded leaf or to a pending entry, and — the routing
heart — every sample of a pending entry's range descends from the root to
that entry's parent and is routed to the entry's side, while every sample of
a recorded leaf's range descends from the root to that leaf. -/
structure BInv {ρ : Type} (pr : BuildParams) (st : BuildState ρ) : Prop where
  lenTh : st.tree.threshold.length = st.tree.capacity
  lenFt : st.tree.feature.length = st.tree.capacity
  lenCl : st.tree.children_left.length = st.tree.capacity
  lenCr : st.tree.children_right.length = st.tree.capacity
  ptrCap : st.tree.ptr ≤ st.tree.capacity
  nodeEq : st.node_t = st.tree.ptr
  virginTop : ∀ n, st.tree.ptr ≤ n →
    clAt st.tree n = TREE_LEAF ∧ crAt st.tree n = TREE_LEAF
  slotsOrd : SlotsOrd st.tree st.tree.ptr
  stackRange : ∀ E ∈ st.stack, E.start ≤ E.end_ ∧ E.end_ ≤ st.samples.length
  leafRange : ∀ q ∈ st.leaves, q.2.1 ≤ q.2.2 ∧ q.2.2 ≤ st.samples.length
  disjSS : st.stack.Pairwise (fun E F => E.end_ ≤ F.start ∨ F.end_ ≤ E.start)
  disjSL : ∀ E ∈ st.stack, ∀ q ∈ st.leaves,
    E.end_ ≤ q.2.1 ∨ q.2.2 ≤ E.start
  pairUnique : st.stack.Pairwise
    (fun E F => E.parent ≠ F.parent ∨ E.left ≠ F.left)
  entryNode : 0 < st.node_t → ∀ E ∈ st.stack,
    E.parent < st.tree.ptr ∧ slotAt st.tree E.parent E.left = TREE_LEAF
  rootPhase : st.node_t = 0 → st.tree.ptr = 0 ∧ st.leaves = [] ∧
    ∃ E, st.stack = [E]
  pending : ∀ n b, n < st.tree.ptr → slotAt st.tree n b = TREE_LEAF →
    (∃ q ∈ st.leaves, q.1 = n) ∨ ∃ E ∈ st.stack, E.parent = n ∧ E.left = b
  leafIds : ∀ q ∈ st.leaves, q.1 < st.tree.ptr ∧
    clAt st.tree q.1 = TREE_LEAF ∧ crAt st.tree q.1 = TREE_LEAF
  leafNoPatch : ∀ q ∈ st.leaves, ∀ E ∈ st.stack, E.parent ≠ q.1
  entriesGood : 0 < st.node_t → ∀ E ∈ st.stack,
    ∀ i ∈ slice st.samples E.start E.end_,
      Arrives st.tree (fun j => pr.X i j) 0 E.parent ∧
      (E.left = true →
        pr.X i (featAt st.tree E.parent).toNat ≤ thrAt st.tree E.parent) ∧
      (E.left = false →
        ¬ pr.X i (featAt st.tree E.parent).toNat ≤ thrAt st.tree E.parent)
  leavesGood : ∀ q ∈ st.leaves, ∀ i ∈ slice st.samples q.2.1 q.2.2,
    Arrives st.tree (fun j => pr.X i j) 0 q.1

theorem BInv_init {ρ : Type} (rng0 : ρ) (pr : BuildParams) :
    BInv pr (initState rng0 pr) := by
  have hcl : ∀ n, clAt (treeInit (2 ^ 10)) n = TREE_LEAF := fun n =>
    getD_replicate _ _ _
  have hcr : ∀ n, crAt (treeInit (2 ^ 10)) n = TREE_LEAF := fun n =>
    getD_replicate _ _ _
  constructor
  · exact List.length_replicate _ _
  · exact List.length_replicate _ _
  · exact List.length_replicate _ _
  · exact List.length_replicate _ _
  · exact Nat.zero_le _
  · rfl
  · intro n _
    exact ⟨hcl n, hcr n⟩
  · intro n b
    cases b with
    | false => exact Or.inl (hcr n)
    | true => exact Or.inl (hcl n)
  · intro E hE
    have hE2 := List.mem_singleton.mp hE
    subst hE2
    exact ⟨Nat.zero_le _, le_refl _⟩
  · intro q hq
    exact absurd hq (List.not_mem_nil q)
  · exact List.pairwise_cons.mpr
      ⟨fun F hF => absurd hF (List.not_mem_nil F), List.Pairwise.nil⟩
  · intro E _ q hq
    exact absurd hq (List.not_mem_nil q)
  · exact List.pairwise_cons.mpr
      ⟨fun F hF => absurd hF (List.not_mem_nil F), List.Pairwise.nil⟩
  · intro h
    exact absurd h (lt_irrefl 0)
  · intro _
    exact ⟨rfl, rfl, ⟨_, rfl⟩⟩
  · intro n b hn
    exact absurd hn (Nat.not_lt_zero n)
  · intro q hq
    exact absurd hq (List.not_mem_nil q)
  · intro q hq
    exact absurd hq (List.not_mem_nil q)
  · intro h
    exact absurd h (lt_irrefl 0)
  · intro q hq
    exact absurd hq (List.not_mem_nil q)

/-- The unified facts about the tree after the child-pointer patch of one
loop iteration (tree.py lines 368-375), covering both the patching and the
root (no-patch) phases. -/
theorem t1_facts {ρ : Type} {pr : BuildParams} {st : BuildState ρ}
    (hI : BInv pr st) {E : Entry} {rest : List Entry} {t1 : TreeSt}
    (hstk : st.stack = E :: rest)
    (hpatch : (0 < st.node_t ∧
      st.tree.setChild E.left E.parent (st.node_t : Int) = some t1) ∨
      (st.node_t = 0 ∧ t1 = st.tree)) :
    t1.capacity = st.tree.capacity ∧ t1.ptr = st.tree.ptr ∧
    t1.threshold = st.tree.threshold ∧ t1.feature = st.tree.feature ∧
    t1.children_left.length = st.tree.children_left.length ∧
    t1.children_right.length = st.tree.children_right.length ∧
    (∀ n b (m : Nat), slotAt st.tree n b = (m : Int) → 0 < m →
      slotAt t1 n b = (m : Int)) ∧
    (∀ n b, ¬ (0 < st.node_t ∧ n = E.parent ∧ b = E.left) →
      slotAt t1 n b = slotAt st.tree n b) ∧
    (0 < st.node_t → slotAt t1 E.parent E.left = (st.node_t : Int)) := by
  have hmemE : E ∈ st.stack := hstk ▸ List.mem_cons_self E rest
  rcases hpatch with ⟨hnt, hsc⟩ | ⟨hnt0, rfl⟩
  · obtain ⟨hc1, hcap1, hptr1, hth1, hfe1, hll1, hrl1, hkeep1, hwrite1⟩ :=
      setChild_parts hsc
    have hvirgin := (hI.entryNode hnt E hmemE).2
    refine ⟨hcap1, hptr1, hth1, hfe1, hll1, hrl1, ?_, ?_, ?_⟩
    · intro n b m hs hm
      have hne : ¬ (n = E.parent ∧ b = E.left) := by
        rintro ⟨rfl, rfl⟩
        rw [hvirgin] at hs
        unfold TREE_LEAF at hs
        omega
      rw [hkeep1 n b hne]
      exact hs
    · intro n b hne
      exact hkeep1 n b (fun hc => hne ⟨hnt, hc.1, hc.2⟩)
    · intro _
      exact hwrite1 (by rw [hI.lenCl]; exact hc1) (by rw [hI.lenCr]; exact hc1)
  · refine ⟨rfl, rfl, rfl, rfl, rfl, rfl, fun n b m hs _ => hs,
      fun n b _ => rfl, ?_⟩
    intro hpos
    exact absurd hpos (by omega)

/-- One loop iteration that pops entry `E` and commits a terminal node
preserves the build invariant.  `S2` is the sample permutation after the
iteration (unchanged on the depth/size early exit, re-sorted inside `E`'s
range when `_best_split` found no split). -/
theorem bstep_BInv_terminal {ρ : Type} {pr : BuildParams} {st : BuildState ρ}
    (hI : BInv pr st) {E : Entry} {rest : List Entry} {t1 t2 : TreeSt}
    {S2 fts2 : List Nat} {g2 : ρ}
    (hstk : st.stack = E :: rest)
    (hpatch : (0 < st.node_t ∧
      st.tree.setChild E.left E.parent (st.node_t : Int) = some t1) ∨
      (st.node_t = 0 ∧ t1 = st.tree))
    (hadd : t1.add_terminal_node E.value = some t2)
    (hS2len : S2.length = st.samples.length)
    (hS2out : ∀ p, p < E.start ∨ E.end_ ≤ p → S2[p]? = st.samples[p]?)
    (hS2perm : List.Perm (slice S2 E.start E.end_)
      (slice st.samples E.start E.end_)) :
    BInv pr
      { st with
        samples := S2
        features := fts2
        rng := g2
        tree := t2
        stack := rest
        node_t := st.node_t + 1
        leaves := (st.node_t, E.start, E.end_) :: st.leaves } := by
  have hmemE : E ∈ st.stack := hstk ▸ List.mem_cons_self E rest
  have hE := hI.stackRange E hmemE
  obtain ⟨hcap1, hptr1, hth1, hfe1, hll1, hrl1, hkeep, hother, hfill⟩ :=
    t1_facts hI hstk hpatch
  obtain ⟨hlt2, hcap2, hptr2, hth2, hfe2, hcl2, hcr2⟩ := add_terminal_parts hadd
  have hptr21 : t2.ptr = st.tree.ptr + 1 := by rw [hptr2, hptr1]
  have hcap21 : t2.capacity = st.tree.capacity := by rw [hcap2, hcap1]
  have hlt : st.tree.ptr < st.tree.capacity := by
    rw [← hptr1, ← hcap1]
    exact hlt2
  have hfeatAll : ∀ n, featAt t2 n = featAt st.tree n := fun n => by
    unfold featAt
    rw [hfe2, hfe1]
  have hthrAll : ∀ n, thrAt t2 n = thrAt st.tree n := fun n => by
    unfold thrAt
    rw [hth2, hth1]
  have hslot21 : ∀ n b, slotAt t2 n b = slotAt t1 n b := fun n b => by
    cases b with
    | false =>
      show crAt t2 n = crAt t1 n
      unfold crAt
      rw [hcr2]
    | true =>
      show clAt t2 n = clAt t1 n
      unfold clAt
      rw [hcl2]
  have hkeep2 : ∀ n b (m : Nat), slotAt st.tree n b = (m : Int) → 0 < m →
      slotAt t2 n b = (m : Int) := fun n b m hs hm => by
    rw [hslot21]
    exact hkeep n b m hs hm
  have hother2 : ∀ n b, ¬ (0 < st.node_t ∧ n = E.parent ∧ b = E.left) →
      slotAt t2 n b = slotAt st.tree n b := fun n b hne => by
    rw [hslot21]
    exact hother n b hne
  have hfill2 : 0 < st.node_t → slotAt t2 E.parent E.left = (st.node_t : Int) :=
    fun h => by
      rw [hslot21]
      exact hfill h
  have hmono : ∀ (x : Nat → ℚ) (n k : Nat), Arrives st.tree x n k →
      Arrives t2 x n k := fun x n k har =>
    arrives_mono hI.slotsOrd (fun n2 _ => hfeatAll n2) (fun n2 _ => hthrAll n2)
      hkeep2 har
  have hEparent : 0 < st.node_t → E.parent < st.tree.ptr := fun hnt =>
    (hI.entryNode hnt E hmemE).1
  have hhigh : ∀ n b, st.tree.ptr ≤ n → slotAt t2 n b = slotAt st.tree n b :=
    fun n b hn => hother2 n b (by
      rintro ⟨hnt, rfl, _⟩
      exact absurd hn (by have := hEparent hnt; omega))
  have hrestSlot : ∀ F ∈ rest,
      slotAt t2 F.parent F.left = slotAt st.tree F.parent F.left := by
    intro F hF
    by_cases hnt : 0 < st.node_t
    · have hdPU := hI.pairUnique
      rw [hstk] at hdPU
      have hpair := (List.pairwise_cons.mp hdPU).1 F hF
      refine hother2 _ _ ?_
      rintro ⟨_, hp, hl⟩
      rcases hpair with h | h
      · exact h hp.symm
      · exact h hl.symm
    · refine hother2 _ _ ?_
      rintro ⟨hnt2, _, _⟩
      exact hnt hnt2
  have hleafSlot : ∀ q ∈ st.leaves,
      slotAt t2 q.1 true = slotAt st.tree q.1 true ∧
      slotAt t2 q.1 false = slotAt st.tree q.1 false := by
    intro q hq
    have hnp : ∀ _ : 0 < st.node_t, E.parent ≠ q.1 := fun _ =>
      hI.leafNoPatch q hq E hmemE
    constructor <;>
      exact hother2 _ _ (by rintro ⟨hnt, hp, _⟩; exact hnp hnt hp.symm)
  have hnewArr : ∀ i, i ∈ slice st.samples E.start E.end_ →
      Arrives t2 (fun j => pr.X i j) 0 st.node_t := by
    intro i hi
    by_cases hnt : 0 < st.node_t
    · have hEG := hI.entriesGood hnt E hmemE i hi
      have h0 : Arrives t2 (fun j => pr.X i j) 0 E.parent :=
        hmono _ _ _ hEG.1
      refine arrives_trans h0 ?_
      cases hbL : E.left with
      | true =>
        refine Arrives.stepL E.parent st.node_t st.node_t ?_ hnt ?_
          (Arrives.refl _)
        · have hthis := hfill2 hnt
          rw [hbL] at hthis
          exact hthis
        · rw [hfeatAll, hthrAll]
          exact hEG.2.1 hbL
      | false =>
        refine Arrives.stepR E.parent st.node_t st.node_t ?_ hnt ?_
          (Arrives.refl _)
        · have hthis := hfill2 hnt
          rw [hbL] at hthis
          exact hthis
        · rw [hfeatAll, hthrAll]
          exact hEG.2.2 hbL
    · have hnt0 : st.node_t = 0 := by omega
      rw [hnt0]
      exact Arrives.refl 0
  have hnteq : st.node_t = st.tree.ptr := hI.nodeEq
  have hrestMem : ∀ F ∈ rest, F ∈ st.stack := fun F hF =>
    hstk ▸ List.mem_cons_of_mem E hF
  have hdSS : (E :: rest).Pairwise
      (fun A B => A.end_ ≤ B.start ∨ B.end_ ≤ A.start) := by
    have hthis := hI.disjSS
    rw [hstk] at hthis
    exact hthis
  have hheadSS := (List.pairwise_cons.mp hdSS).1
  have hrestNN : ¬ 0 < st.node_t → rest = [] := by
    intro hnt
    obtain ⟨_, _, E2, hsing⟩ := hI.rootPhase (by omega)
    rw [hstk] at hsing
    simp only [List.cons.injEq] at hsing
    exact hsing.2
  have hsliceEq : ∀ a b2 : Nat, (b2 ≤ E.start ∨ E.end_ ≤ a) →
      slice S2 a b2 = slice st.samples a b2 := by
    intro a b2 hd
    apply slice_congr
    intro p hpa hpb
    exact hS2out p (by omega)
  constructor
  · show t2.threshold.length = t2.capacity
    rw [hth2, hth1, hcap21]
    exact hI.lenTh
  · show t2.feature.length = t2.capacity
    rw [hfe2, hfe1, hcap21]
    exact hI.lenFt
  · show t2.children_left.length = t2.capacity
    rw [hcl2, hll1, hcap21]
    exact hI.lenCl
  · show t2.children_right.length = t2.capacity
    rw [hcr2, hrl1, hcap21]
    exact hI.lenCr
  · show t2.ptr ≤ t2.capacity
    rw [hptr21, hcap21]
    omega
  · show st.node_t + 1 = t2.ptr
    rw [hptr21]
    omega
  · dsimp only
    intro n hn
    rw [hptr21] at hn
    constructor
    · show slotAt t2 n true = TREE_LEAF
      rw [hhigh n true (by omega)]
      exact (hI.virginTop n (by omega)).1
    · show slotAt t2 n false = TREE_LEAF
      rw [hhigh n false (by omega)]
      exact (hI.virginTop n (by omega)).2
  · dsimp only
    intro n b
    by_cases htar : 0 < st.node_t ∧ n = E.parent ∧ b = E.left
    · obtain ⟨hnt, rfl, rfl⟩ := htar
      right
      refine ⟨st.node_t, hnt, hfill2 hnt, ?_, ?_⟩
      · have := hEparent hnt
        omega
      · rw [hptr21]
        omega
    · rw [hother2 n b htar]
      rcases hI.slotsOrd n b with h | ⟨m, hm, hs, h1, h2⟩
      · exact Or.inl h
      · exact Or.inr ⟨m, hm, hs, h1, by rw [hptr21]; omega⟩
  · dsimp only
    intro F hF
    have hthis := hI.stackRange F (hrestMem F hF)
    exact ⟨hthis.1, by rw [hS2len]; exact hthis.2⟩
  · dsimp only
    intro q hq
    rcases List.mem_cons.mp hq with rfl | hq2
    · exact ⟨hE.1, by rw [hS2len]; exact hE.2⟩
    · have hthis := hI.leafRange q hq2
      exact ⟨hthis.1, by rw [hS2len]; exact hthis.2⟩
  · dsimp only
    exact hdSS.of_cons
  · dsimp only
    intro F hF q hq
    rcases List.mem_cons.mp hq with rfl | hq2
    · rcases hheadSS F hF with h | h
      · exact Or.inr h
      · exact Or.inl h
    · exact hI.disjSL F (hrestMem F hF) q hq2
  · dsimp only
    have hthis := hI.pairUnique
    rw [hstk] at hthis
    exact hthis.of_cons
  · dsimp only
    intro _ F hF
    by_cases hnt : 0 < st.node_t
    · have hEN := hI.entryNode hnt F (hrestMem F hF)
      refine ⟨by rw [hptr21]; omega, ?_⟩
      rw [hrestSlot F hF]
      exact hEN.2
    · rw [hrestNN hnt] at hF
      exact absurd hF (List.not_mem_nil F)
  · dsimp only
    intro hz
    exact absurd hz (Nat.succ_ne_zero _)
  · dsimp only
    intro n b hn hslot
    rw [hptr21] at hn
    by_cases hcase : n < st.tree.ptr
    · have hnt : 0 < st.node_t := by omega
      have htar : ¬ (0 < st.node_t ∧ n = E.parent ∧ b = E.left) := by
        rintro ⟨_, rfl, rfl⟩
        rw [hfill2 hnt] at hslot
        unfold TREE_LEAF at hslot
        omega
      rw [hother2 n b htar] at hslot
      rcases hI.pending n b hcase hslot with ⟨q, hq, hqn⟩ | ⟨F, hFmem, hFp⟩
      · exact Or.inl ⟨q, List.mem_cons_of_mem _ hq, hqn⟩
      · rw [hstk] at hFmem
        rcases List.mem_cons.mp hFmem with rfl | hF2
        · exact absurd ⟨hnt, hFp.1.symm, hFp.2.symm⟩ htar
        · exact Or.inr ⟨F, hF2, hFp⟩
    · have hneq : n = st.tree.ptr := by omega
      left
      refine ⟨(st.node_t, E.start, E.end_), List.mem_cons_self _ _, ?_⟩
      show st.node_t = n
      rw [hneq]
      exact hnteq
  · dsimp only
    intro q hq
    rcases List.mem_cons.mp hq with rfl | hq2
    · refine ⟨by rw [hptr21]; omega, ?_, ?_⟩
      · show slotAt t2 st.node_t true = TREE_LEAF
        rw [hnteq, hhigh _ _ (le_refl _)]
        exact (hI.virginTop _ (le_refl _)).1
      · show slotAt t2 st.node_t false = TREE_LEAF
        rw [hnteq, hhigh _ _ (le_refl _)]
        exact (hI.virginTop _ (le_refl _)).2
    · have hold := hI.leafIds q hq2
      refine ⟨by rw [hptr21]; omega, ?_, ?_⟩
      · show slotAt t2 q.1 true = TREE_LEAF
        rw [(hleafSlot q hq2).1]
        exact hold.2.1
      · show slotAt t2 q.1 false = TREE_LEAF
        rw [(hleafSlot q hq2).2]
        exact hold.2.2
  · dsimp only
    intro q hq F hF
    by_cases hnt : 0 < st.node_t
    · rcases List.mem_cons.mp hq with rfl | hq2
      · have hthis := (hI.entryNode hnt F (hrestMem F hF)).1
        show F.parent ≠ st.node_t
        omega
      · exact hI.leafNoPatch q hq2 F (hrestMem F hF)
    · rw [hrestNN hnt] at hF
      exact absurd hF (List.not_mem_nil F)
  · dsimp only
    intro _ F hF i hi
    by_cases hnt : 0 < st.node_t
    · have hslice : slice S2 F.start F.end_ =
          slice st.samples F.start F.end_ := by
        apply hsliceEq
        rcases hheadSS F hF with h | h
        · exact Or.inr h
        · exact Or.inl h
      rw [hslice] at hi
      have hEG := hI.entriesGood hnt F (hrestMem F hF) i hi
      refine ⟨hmono _ _ _ hEG.1, ?_, ?_⟩
      · intro hbb
        rw [hfeatAll, hthrAll]
        exact hEG.2.1 hbb
      · intro hbb
        rw [hfeatAll, hthrAll]
        exact hEG.2.2 hbb
    · rw [hrestNN hnt] at hF
      exact absurd hF (List.not_mem_nil F)
  · dsimp only
    intro q hq i hi
    rcases List.mem_cons.mp hq with rfl | hq2
    · exact hnewArr i (hS2perm.mem_iff.mp hi)
    · have hslice : slice S2 q.2.1 q.2.2 = slice st.samples q.2.1 q.2.2 := by
        apply hsliceEq
        rcases hI.disjSL E hmemE q hq2 with h | h
        · exact Or.inr h
        · exact Or.inl h
      rw [hslice] at hi
      exact hmono _ _ _ (hI.leavesGood q hq2 i hi)

/-- One loop iteration that pops entry `E` and commits an internal node
splitting `[E.start, E.end_)` at `posN` (feature `jN`, threshold `thN`)
preserves the build invariant.  `hrouteL`/`hrouteR` are the routing facts of
the committed physical partition, as `best_split_spec` provides them. -/
theorem bstep_BInv_split {ρ : Type} {pr : BuildParams} {st : BuildState ρ}
    (hI : BInv pr st) {E : Entry} {rest : List Entry} {t1 t2 : TreeSt}
    {S2 fts2 : List Nat} {g2 : ρ} {thN : ℚ} {jN posN : Nat}
    {NL NR vL vR : ℚ}
    (hstk : st.stack = E :: rest)
    (hpatch : (0 < st.node_t ∧
      st.tree.setChild E.left E.parent (st.node_t : Int) = some t1) ∨
      (st.node_t = 0 ∧ t1 = st.tree))
    (hadd : t1.add_node thN ((jN : Nat) : Int) E.value = some t2)
    (hS2len : S2.length = st.samples.length)
    (hS2out : ∀ p, p < E.start ∨ E.end_ ≤ p → S2[p]? = st.samples[p]?)
    (hS2perm : List.Perm (slice S2 E.start E.end_)
      (slice st.samples E.start E.end_))
    (hposS : E.start + 1 ≤ posN) (hposE : posN + 1 ≤ E.end_)
    (hrouteL : ∀ i ∈ slice S2 E.start posN, pr.X i jN ≤ thN)
    (hrouteR : ∀ i ∈ slice S2 posN E.end_, ¬ pr.X i jN ≤ thN) :
    BInv pr
      { st with
        samples := S2
        features := fts2
        rng := g2
        tree := t2
        stack :=
          (⟨posN, E.end_, false, E.depth + 1, NR, st.node_t, vR⟩ : Entry) ::
          (⟨E.start, posN, true, E.depth + 1, NL, st.node_t, vL⟩ : Entry) ::
          rest
        node_t := st.node_t + 1
        splits := (st.node_t, E.start, posN, E.end_) :: st.splits } := by
  have hmemE : E ∈ st.stack := hstk ▸ List.mem_cons_self E rest
  have hE := hI.stackRange E hmemE
  obtain ⟨hcap1, hptr1, hth1, hfe1, hll1, hrl1, hkeep, hother, hfill⟩ :=
    t1_facts hI hstk hpatch
  obtain ⟨hlt2, hcap2, hptr2, hthset, hfeset, hcl2, hcr2⟩ := add_node_parts hadd
  have hptr21 : t2.ptr = st.tree.ptr + 1 := by rw [hptr2, hptr1]
  have hcap21 : t2.capacity = st.tree.capacity := by rw [hcap2, hcap1]
  have hlt : st.tree.ptr < st.tree.capacity := by
    rw [← hptr1, ← hcap1]
    exact hlt2
  have hfeatLt : ∀ n, n < st.tree.ptr → featAt t2 n = featAt st.tree n := by
    intro n hn
    unfold featAt
    rw [hfeset, getD_set_ne _ _ _ _ _ (show t1.ptr ≠ n by rw [hptr1]; omega),
      hfe1]
  have hthrLt : ∀ n, n < st.tree.ptr → thrAt t2 n = thrAt st.tree n := by
    intro n hn
    unfold thrAt
    rw [hthset, getD_set_ne _ _ _ _ _ (show t1.ptr ≠ n by rw [hptr1]; omega),
      hth1]
  have hfeatNew : featAt t2 st.tree.ptr = ((jN : Nat) : Int) := by
    unfold featAt
    rw [hfeset, ← hptr1]
    exact getD_set_lt _ _ _ _ (by rw [hfe1, hI.lenFt, hptr1]; exact hlt)
  have hthrNew : thrAt t2 st.tree.ptr = thN := by
    unfold thrAt
    rw [hthset, ← hptr1]
    exact getD_set_lt _ _ _ _ (by rw [hth1, hI.lenTh, hptr1]; exact hlt)
  have hslot21 : ∀ n b, slotAt t2 n b = slotAt t1 n b := fun n b => by
    cases b with
    | false =>
      show crAt t2 n = crAt t1 n
      unfold crAt
      rw [hcr2]
    | true =>
      show clAt t2 n = clAt t1 n
      unfold clAt
      rw [hcl2]
  have hkeep2 : ∀ n b (m : Nat), slotAt st.tree n b = (m : Int) → 0 < m →
      slotAt t2 n b = (m : Int) := fun n b m hs hm => by
    rw [hslot21]
    exact hkeep n b m hs hm
  have hother2 : ∀ n b, ¬ (0 < st.node_t ∧ n = E.parent ∧ b = E.left) →
      slotAt t2 n b = slotAt st.tree n b := fun n b hne => by
    rw [hslot21]
    exact hother n b hne
  have hfill2 : 0 < st.node_t → slotAt t2 E.parent E.left = (st.node_t : Int) :=
    fun h => by
      rw [hslot21]
      exact hfill h
  have hmono : ∀ (x : Nat → ℚ) (n k : Nat), Arrives st.tree x n k →
      Arrives t2 x n k := fun x n k har =>
    arrives_mono hI.slotsOrd (fun n2 hn2 => hfeatLt n2 hn2)
      (fun n2 hn2 => hthrLt n2 hn2) hkeep2 har
  have hEparent : 0 < st.node_t → E.parent < st.tree.ptr := fun hnt =>
    (hI.entryNode hnt E hmemE).1
  have hhigh : ∀ n b, st.tree.ptr ≤ n → slotAt t2 n b = slotAt st.tree n b :=
    fun n b hn => hother2 n b (by
      rintro ⟨hnt, rfl, _⟩
      exact absurd hn (by have := hEparent hnt; omega))
  have hdPU : (E :: rest).Pairwise
      (fun A B => A.parent ≠ B.parent ∨ A.left ≠ B.left) := by
    have hthis := hI.pairUnique
    rw [hstk] at hthis
    exact hthis
  have hrestSlot : ∀ F ∈ rest,
      slotAt t2 F.parent F.left = slotAt st.tree F.parent F.left := by
    intro F hF
    by_cases hnt : 0 < st.node_t
    · have hpair := (List.pairwise_cons.mp hdPU).1 F hF
      refine hother2 _ _ ?_
      rintro ⟨_, hp, hl⟩
      rcases hpair with h | h
      · exact h hp.symm
      · exact h hl.symm
    · refine hother2 _ _ ?_
      rintro ⟨hnt2, _, _⟩
      exact hnt hnt2
  have hleafSlot : ∀ q ∈ st.leaves,
      slotAt t2 q.1 true = slotAt st.tree q.1 true ∧
      slotAt t2 q.1 false = slotAt st.tree q.1 false := by
    intro q hq
    have hnp : ∀ _ : 0 < st.node_t, E.parent ≠ q.1 := fun _ =>
      hI.leafNoPatch q hq E hmemE
    constructor <;>
      exact hother2 _ _ (by rintro ⟨hnt, hp, _⟩; exact hnp hnt hp.symm)
  have hnewArr : ∀ i, i ∈ slice st.samples E.start E.end_ →
      Arrives t2 (fun j => pr.X i j) 0 st.node_t := by
    intro i hi
    by_cases hnt : 0 < st.node_t
    · have hEG := hI.entriesGood hnt E hmemE i hi
      have h0 : Arrives t2 (fun j => pr.X i j) 0 E.parent :=
        hmono _ _ _ hEG.1
      refine arrives_trans h0 ?_
      cases hbL : E.left with
      | true =>
        refine Arrives.stepL E.parent st.node_t st.node_t ?_ hnt ?_
          (Arrives.refl _)
        · have hthis := hfill2 hnt
          rw [hbL] at hthis
          exact hthis
        · rw [hfeatLt _ (hEparent hnt), hthrLt _ (hEparent hnt)]
          exact hEG.2.1 hbL
      | false =>
        refine Arrives.stepR E.parent st.node_t st.node_t ?_ hnt ?_
          (Arrives.refl _)
        · have hthis := hfill2 hnt
          rw [hbL] at hthis
          exact hthis
        · rw [hfeatLt _ (hEparent hnt), hthrLt _ (hEparent hnt)]
          exact hEG.2.2 hbL
    · have hnt0 : st.node_t = 0 := by omega
      rw [hnt0]
      exact Arrives.refl 0
  have hnteq : st.node_t = st.tree.ptr := hI.nodeEq
  have hrestMem : ∀ F ∈ rest, F ∈ st.stack := fun F hF =>
    hstk ▸ List.mem_cons_of_mem E hF
  have hdSS : (E :: rest).Pairwise
      (fun A B => A.end_ ≤ B.start ∨ B.end_ ≤ A.start) := by
    have hthis := hI.disjSS
    rw [hstk] at hthis
    exact hthis
  have hheadSS := (List.pairwise_cons.mp hdSS).1
  have hrestNN : ¬ 0 < st.node_t → rest = [] := by
    intro hnt
    obtain ⟨_, _, E2, hsing⟩ := hI.rootPhase (by omega)
    rw [hstk] at hsing
    simp only [List.cons.injEq] at hsing
    exact hsing.2
  have hsliceEq : ∀ a b2 : Nat, (b2 ≤ E.start ∨ E.end_ ≤ a) →
      slice S2 a b2 = slice st.samples a b2 := by
    intro a b2 hd
    apply slice_congr
    intro p hpa hpb
    exact hS2out p (by omega)
  constructor
  · show t2.threshold.length = t2.capacity
    rw [hthset, List.length_set, hth1, hcap21]
    exact hI.lenTh
  · show t2.feature.length = t2.capacity
    rw [hfeset, List.length_set, hfe1, hcap21]
    exact hI.lenFt
  · show t2.children_left.length = t2.capacity
    rw [hcl2, hll1, hcap21]
    exact hI.lenCl
  · show t2.children_right.length = t2.capacity
    rw [hcr2, hrl1, hcap21]
    exact hI.lenCr
  · show t2.ptr ≤ t2.capacity
    rw [hptr21, hcap21]
    omega
  · show st.node_t + 1 = t2.ptr
    rw [hptr21]
    omega
  · dsimp only
    intro n hn
    rw [hptr21] at hn
    constructor
    · show slotAt t2 n true = TREE_LEAF
      rw [hhigh n true (by omega)]
      exact (hI.virginTop n (by omega)).1
    · show slotAt t2 n false = TREE_LEAF
      rw [hhigh n false (by omega)]
      exact (hI.virginTop n (by omega)).2
  · dsimp only
    intro n b
    by_cases htar : 0 < st.node_t ∧ n = E.parent ∧ b = E.left
    · obtain ⟨hnt, rfl, rfl⟩ := htar
      right
      refine ⟨st.node_t, hnt, hfill2 hnt, ?_, ?_⟩
      · have := hEparent hnt
        omega
      · rw [hptr21]
        omega
    · rw [hother2 n b htar]
      rcases hI.slotsOrd n b with h | ⟨m, hm, hs, h1, h2⟩
      · exact Or.inl h
      · exact Or.inr ⟨m, hm, hs, h1, by rw [hptr21]; omega⟩
  · dsimp only
    intro F hF
    rcases List.mem_cons.mp hF with rfl | hF1
    · exact ⟨show posN ≤ E.end_ by omega,
        show E.end_ ≤ S2.length by rw [hS2len]; exact hE.2⟩
    · rcases List.mem_cons.mp hF1 with rfl | hF2
      · refine ⟨show E.start ≤ posN by omega, ?_⟩
        show posN ≤ S2.length
        rw [hS2len]
        have := hE.2
        omega
      · have hthis := hI.stackRange F (hrestMem F hF2)
        exact ⟨hthis.1, by rw [hS2len]; exact hthis.2⟩
  · dsimp only
    intro q hq
    have hthis := hI.leafRange q hq
    exact ⟨hthis.1, by rw [hS2len]; exact hthis.2⟩
  · dsimp only
    refine List.pairwise_cons.mpr ⟨?_, List.pairwise_cons.mpr
      ⟨?_, hdSS.of_cons⟩⟩
    · intro F hF
      rcases List.mem_cons.mp hF with rfl | hF2
      · exact Or.inr (show posN ≤ posN from le_refl _)
      · rcases hheadSS F hF2 with h | h
        · exact Or.inl (show E.end_ ≤ F.start from h)
        · exact Or.inr (show F.end_ ≤ posN by omega)
    · intro F hF
      rcases hheadSS F hF with h | h
      · exact Or.inl (show posN ≤ F.start by omega)
      · exact Or.inr (show F.end_ ≤ E.start from h)
  · dsimp only
    intro F hF q hq
    rcases List.mem_cons.mp hF with rfl | hF1
    · rcases hI.disjSL E hmemE q hq with h | h
      · exact Or.inl (show E.end_ ≤ q.2.1 from h)
      · exact Or.inr (show q.2.2 ≤ posN by omega)
    · rcases List.mem_cons.mp hF1 with rfl | hF2
      · rcases hI.disjSL E hmemE q hq with h | h
        · exact Or.inl (show posN ≤ q.2.1 by omega)
        · exact Or.inr (show q.2.2 ≤ E.start from h)
      · exact hI.disjSL F (hrestMem F hF2) q hq
  · dsimp only
    refine List.pairwise_cons.mpr ⟨?_, List.pairwise_cons.mpr
      ⟨?_, hdPU.of_cons⟩⟩
    · intro F hF
      rcases List.mem_cons.mp hF with rfl | hF2
      · exact Or.inr (show (false : Bool) ≠ true by decide)
      · by_cases hnt : 0 < st.node_t
        · have := (hI.entryNode hnt F (hrestMem F hF2)).1
          exact Or.inl (show st.node_t ≠ F.parent by omega)
        · rw [hrestNN hnt] at hF2
          exact absurd hF2 (List.not_mem_nil F)
    · intro F hF
      by_cases hnt : 0 < st.node_t
      · have := (hI.entryNode hnt F (hrestMem F hF)).1
        exact Or.inl (show st.node_t ≠ F.parent by omega)
      · rw [hrestNN hnt] at hF
        exact absurd hF (List.not_mem_nil F)
  · dsimp only
    intro _ F hF
    rcases List.mem_cons.mp hF with rfl | hF1
    · refine ⟨show st.node_t < t2.ptr by rw [hptr21]; omega, ?_⟩
      show slotAt t2 st.node_t false = TREE_LEAF
      rw [hnteq, hhigh _ _ (le_refl _)]
      exact (hI.virginTop _ (le_refl _)).2
    · rcases List.mem_cons.mp hF1 with rfl | hF2
      · refine ⟨show st.node_t < t2.ptr by rw [hptr21]; omega, ?_⟩
        show slotAt t2 st.node_t true = TREE_LEAF
        rw [hnteq, hhigh _ _ (le_refl _)]
        exact (hI.virginTop _ (le_refl _)).1
      · by_cases hnt : 0 < st.node_t
        · have hEN := hI.entryNode hnt F (hrestMem F hF2)
          refine ⟨by rw [hptr21]; omega, ?_⟩
          rw [hrestSlot F hF2]
          exact hEN.2
        · rw [hrestNN hnt] at hF2
          exact absurd hF2 (List.not_mem_nil F)
  · dsimp only
    intro hz
    exact absurd hz (Nat.succ_ne_zero _)
  · dsimp only
    intro n b hn hslot
    rw [hptr21] at hn
    by_cases hcase : n < st.tree.ptr
    · have hnt : 0 < st.node_t := by omega
      have htar : ¬ (0 < st.node_t ∧ n = E.parent ∧ b = E.left) := by
        rintro ⟨_, rfl, rfl⟩
        rw [hfill2 hnt] at hslot
        unfold TREE_LEAF at hslot
        omega
      rw [hother2 n b htar] at hslot
      rcases hI.pending n b hcase hslot with ⟨q, hq, hqn⟩ | ⟨F, hFmem, hFp⟩
      · exact Or.inl ⟨q, hq, hqn⟩
      · rw [hstk] at hFmem
        rcases List.mem_cons.mp hFmem with rfl | hF2
        · exact absurd ⟨hnt, hFp.1.symm, hFp.2.symm⟩ htar
        · exact Or.inr ⟨F, List.mem_cons_of_mem _
            (List.mem_cons_of_mem _ hF2), hFp⟩
    · have hneq : n = st.tree.ptr := by omega
      right
      cases b with
      | true =>
        refine ⟨⟨E.start, posN, true, E.depth + 1, NL, st.node_t, vL⟩,
          List.mem_cons_of_mem _ (List.mem_cons_self _ _), ?_, rfl⟩
        show st.node_t = n
        rw [hneq]
        exact hnteq
      | false =>
        refine ⟨⟨posN, E.end_, false, E.depth + 1, NR, st.node_t, vR⟩,
          List.mem_cons_self _ _, ?_, rfl⟩
        show st.node_t = n
        rw [hneq]
        exact hnteq
  · dsimp only
    intro q hq
    have hold := hI.leafIds q hq
    refine ⟨by rw [hptr21]; omega, ?_, ?_⟩
    · show slotAt t2 q.1 true = TREE_LEAF
      rw [(hleafSlot q hq).1]
      exact hold.2.1
    · show slotAt t2 q.1 false = TREE_LEAF
      rw [(hleafSlot q hq).2]
      exact hold.2.2
  · dsimp only
    intro q hq F hF
    rcases List.mem_cons.mp hF with rfl | hF1
    · have := (hI.leafIds q hq).1
      show st.node_t ≠ q.1
      omega
    · rcases List.mem_cons.mp hF1 with rfl | hF2
      · have := (hI.leafIds q hq).1
        show st.node_t ≠ q.1
        omega
      · exact hI.leafNoPatch q hq F (hrestMem F hF2)
  · dsimp only
    intro _ F hF i hi
    rcases List.mem_cons.mp hF with rfl | hF1
    · dsimp only at hi
      have hi2 : i ∈ slice S2 E.start E.end_ :=
        mem_slice_of_subrange hi (by omega) (le_refl _)
      refine ⟨hnewArr i (hS2perm.mem_iff.mp hi2), ?_, ?_⟩
      · intro hbb
        exact Bool.noConfusion hbb
      · intro _
        show ¬ pr.X i (featAt t2 st.node_t).toNat ≤ thrAt t2 st.node_t
        rw [hnteq, hfeatNew, hthrNew, Int.toNat_natCast]
        exact hrouteR i hi
    · rcases List.mem_cons.mp hF1 with rfl | hF2
      · dsimp only at hi
        have hi2 : i ∈ slice S2 E.start E.end_ :=
          mem_slice_of_subrange hi (le_refl _) (by omega)
        refine ⟨hnewArr i (hS2perm.mem_iff.mp hi2), ?_, ?_⟩
        · intro _
          show pr.X i (featAt t2 st.node_t).toNat ≤ thrAt t2 st.node_t
          rw [hnteq, hfeatNew, hthrNew, Int.toNat_natCast]
          exact hrouteL i hi
        · intro hbb
          exact Bool.noConfusion hbb
      · have hslice : slice S2 F.start F.end_ =
            slice st.samples F.start F.end_ := by
          apply hsliceEq
          rcases hheadSS F hF2 with h | h
          · exact Or.inr h
          · exact Or.inl h
        rw [hslice] at hi
        by_cases hnt : 0 < st.node_t
        · have hEG := hI.entriesGood hnt F (hrestMem F hF2) i hi
          refine ⟨hmono _ _ _ hEG.1, ?_, ?_⟩
          · intro hbb
            rw [hfeatLt _ (hI.entryNode hnt F (hrestMem F hF2)).1,
              hthrLt _ (hI.entryNode hnt F (hrestMem F hF2)).1]
            exact hEG.2.1 hbb
          · intro hbb
            rw [hfeatLt _ (hI.entryNode hnt F (hrestMem F hF2)).1,
              hthrLt _ (hI.entryNode hnt F (hrestMem F hF2)).1]
            exact hEG.2.2 hbb
        · rw [hrestNN hnt] at hF2
          exact absurd hF2 (List.not_mem_nil F)
  · dsimp only
    intro q hq i hi
    have hslice : slice S2 q.2.1 q.2.2 = slice st.samples q.2.1 q.2.2 := by
      apply hsliceEq
      rcases hI.disjSL E hmemE q hq with h | h
      · exact Or.inr h
      · exact Or.inl h
    rw [hslice] at hi
    exact hmono _ _ _ (hI.leavesGood q hq i hi)

/-! ### Concrete fixtures -/

/-- Row-major feature-matrix literal as a total function. -/
def xOf (rows : List (List ℚ)) : Nat → Nat → ℚ :=
  fun i j => (rows.getD i []).getD j 0

/-- Vector literal as a total function. -/
def vOf (v : List ℚ) : Nat → ℚ := fun i => v.getD i 0

/-- Scenario 1 of the spec: `X=[[0],[1],[2],[3]]`, `y=[0,0,10,10]`, unit
weights, regression defaults. -/
def scenario1 : BuildParams :=
  { n_samples := 4, n_features := 1,
    X := xOf [[0], [1], [2], [3]], y := vOf [0, 0, 10, 10],
    sample_weight := fun _ => 1,
    max_features := 1, max_depth := none,
    min_samples_split := 2, min_samples_leaf := 1 }

/-- A degenerate regression build: two rows with identical feature values and
targets `5`, unit weights, so no admissible split exists at the root. -/
def degenerate : BuildParams :=
  { n_samples := 2, n_features := 1,
    X := xOf [[1], [1]], y := vOf [5, 5],
    sample_weight := fun _ => 1,
    max_features := 1, max_depth := none,
    min_samples_split := 2, min_samples_leaf := 1 }

/-- The finalized result of building on Scenario 1, used to instantiate the
general theorems at a concrete input. -/
def scenario1Result : BuildResult :=
  { threshold := [3/2, 5/2, -2, -2, 1/2, -2, -2, -2],
    feature := [0, 0, -2, -2, 0, -2, -2, -2],
    children_left := [4, 3, -1, -1, 6, -1, -1, -1],
    children_right := [1, 2, -1, -1, 5, -1, -1, -1],
    value := [0, 10, 10, 10, 0, 0, 0, 0],
    node_count := 7,
    samples := [0, 1, 2, 3],
    leaves := [(6, 0, 1), (5, 1, 2), (3, 2, 3), (2, 3, 4)],
    splits := [(4, 0, 1, 2), (1, 2, 3, 4), (0, 0, 2, 4)] }

/-- A build input with a zero-weight third row. -/
def zwParams : BuildParams :=
  { n_samples := 3, n_features := 1,
    X := xOf [[1], [2], [9]], y := vOf [5, 6, 77],
    sample_weight := fun i => if i = 2 then 0 else 1,
    max_features := 1, max_depth := none,
    min_samples_split := 2, min_samples_leaf := 1 }

/-- `zwParams`'s feature matrix with the zero-weight row replaced. -/
def zwX2 : Nat → Nat → ℚ := fun i j => if i = 2 then 42 else zwParams.X i j

/-- `zwParams`'s targets with the zero-weight row replaced. -/
def zwY2 : Nat → ℚ := fun i => if i = 2 then 42 else zwParams.y i

/-- What the spec asserts a degenerate leaf should carry: the global weighted
mean of the targets over the samples that enter the build. -/
def specGlobalWeightedMean (n : Nat) (y w : Nat → ℚ) : ℚ :=
  wsum (fun i => w i * y i) (initSamples n w) / wsum w (initSamples n w)

/-! ### Claim theorems: node store and concrete scenarios -/

/-- C3 — Appending to the node store is bounds-checked: below capacity the
append succeeds and no array changes length (the write lands inside the
allocated arrays); at or beyond capacity both append operations signal an
explicit error (`none`, the numpy `IndexError`) rather than writing anywhere.
The same dichotomy governs every node the build stores, since `_build_tree`
only ever writes nodes through these two operations. -/
theorem nodeStore_append_checked (t : TreeSt) (th v : ℚ) (f : Int) :
    (t.ptr < t.capacity →
      (∃ t2, t.add_node th f v = some t2 ∧
        t2.threshold.length = t.threshold.length ∧
        t2.feature.length = t.feature.length ∧
        t2.children_left.length = t.children_left.length ∧
        t2.children_right.length = t.children_right.length ∧
        t2.value.length = t.value.length ∧
        t2.capacity = t.capacity ∧ t2.ptr = t.ptr + 1) ∧
      (∃ t3, t.add_terminal_node v = some t3 ∧
        t3.value.length = t.value.length ∧
        t3.capacity = t.capacity ∧ t3.ptr = t.ptr + 1)) ∧
    (t.capacity ≤ t.ptr →
      t.add_node th f v = none ∧ t.add_terminal_node v = none) := by
  constructor
  · intro h
    simp only [TreeSt.add_node, TreeSt.add_terminal_node, if_pos h]
    exact ⟨⟨_, rfl, by simp [List.length_set], by simp [List.length_set],
        by simp [List.length_set], by simp [List.length_set],
        by simp [List.length_set], rfl, rfl⟩,
      _, rfl, by simp [List.length_set], rfl, rfl⟩
  · intro h
    constructor <;>
      simp [TreeSt.add_node, TreeSt.add_terminal_node, Nat.not_lt.mpr h]

/-- Witness for C3 at concrete stores: a store with free capacity accepts the
append without resizing, a full store signals the error. -/
theorem nodeStore_append_checked_witness :
    ((∃ t2, (treeInit 4).add_node 0 0 0 = some t2 ∧
        t2.threshold.length = (treeInit 4).threshold.length ∧
        t2.feature.length = (treeInit 4).feature.length ∧
        t2.children_left.length = (treeInit 4).children_left.length ∧
        t2.children_right.length = (treeInit 4).children_right.length ∧
        t2.value.length = (treeInit 4).value.length ∧
        t2.capacity = (treeInit 4).capacity ∧ t2.ptr = (treeInit 4).ptr + 1) ∧
      (∃ t3, (treeInit 4).add_terminal_node 0 = some t3 ∧
        t3.value.length = (treeInit 4).value.length ∧
        t3.capacity = (treeInit 4).capacity ∧ t3.ptr = (treeInit 4).ptr + 1)) ∧
    ((treeInit 0).add_node 0 0 0 = none ∧
      (treeInit 0).add_terminal_node 0 = none) :=
  ⟨(nodeStore_append_checked (treeInit 4) 0 0 0).1 (by decide),
   (nodeStore_append_checked (treeInit 0) 0 0 0).2 (by decide)⟩

/-- C2 — Contrary to the claim, finalization trims each persisted array to
`ptr + 1` entries, one more than the number of nodes added: the degenerate
build stores exactly one node, yet every finalized array has length 2. -/
theorem finalize_length_off_by_one :
    (_build_tree noShuffle () id MSE_CRITERION degenerate).map
      (fun r => (r.node_count, r.threshold.length, r.feature.length,
        r.children_left.length, r.children_right.length, r.value.length)) =
      some (1, 2, 2, 2, 2, 2) := by
  with_unfolding_all decide

/-- C1 — Contrary to the claim, the root frontier entry is pushed with
`value = 0`, not the whole-set leaf estimate: the degenerate build (identical
feature rows, all targets `5`) produces a single leaf whose stored value is
`0`, while the global weighted mean of the targets is `5`. -/
theorem degenerate_leaf_value_not_mean :
    (_build_tree noShuffle () id MSE_CRITERION degenerate).map
      (fun r => (r.node_count, r.children_left, r.value)) =
      some (1, [TREE_LEAF, TREE_LEAF], [0, 0]) ∧
    specGlobalWeightedMean 2 degenerate.y degenerate.sample_weight = 5 := by
  constructor
  · with_unfolding_all decide
  · with_unfolding_all decide

/-- C4 (counterexample) — Scenario 1 does not produce a single split: the
finished tree has 7 nodes, the root's left child is node 4, and node 4 is
itself internal (its left child is node 6), so the root's left child is not a
leaf. -/
theorem scenario1_not_single_split :
    (_build_tree noShuffle () id MSE_CRITERION scenario1).map
      (fun r => (r.node_count, r.children_left[0]?, r.children_left[4]?)) =
      some (7, some 4, some 6) := by
  with_unfolding_all decide

/-- C4 (amended) — Scenario 1 produces a 7-node tree: the root tests feature 0
against threshold 3/2; each side is split once more (thresholds 1/2 and 5/2)
into pure leaves; every left-side leaf carries value 0 and every right-side
leaf value 10, so predicting the four training rows yields 0, 0, 10, 10. -/
theorem scenario1_tree :
    _build_tree noShuffle () id MSE_CRITERION scenario1 = some
      { threshold := [3/2, 5/2, -2, -2, 1/2, -2, -2, -2],
        feature := [0, 0, -2, -2, 0, -2, -2, -2],
        children_left := [4, 3, -1, -1, 6, -1, -1, -1],
        children_right := [1, 2, -1, -1, 5, -1, -1, -1],
        value := [0, 10, 10, 10, 0, 0, 0, 0],
        node_count := 7,
        samples := [0, 1, 2, 3],
        leaves := [(6, 0, 1), (5, 1, 2), (3, 2, 3), (2, 3, 4)],
        splits := [(4, 0, 1, 2), (1, 2, 3, 4), (0, 0, 2, 4)] } ∧
    (_build_tree noShuffle () id MSE_CRITERION scenario1).map
      (fun r => (List.range 4).map (fun i =>
        (_apply r.feature r.threshold r.children_left r.children_right
          (fun j => scenario1.X i j)).map (fun nd => r.value.getD nd 0))) =
      some [some 0, some 0, some 10, some 10] := by
  constructor
  · with_unfolding_all decide
  · with_unfolding_all decide

/-- Witness for C6: the root split of Scenario 1 cuts [0, 4) at position 2,
leaving two samples on each side. -/
theorem build_splits_min_samples_leaf_witness :
    0 < 2 ∧ 2 < 4 ∧ 0 + 1 ≤ 2 ∧ 2 + 1 ≤ 4 :=
  build_splits_min_samples_leaf noShuffle () id MSE_CRITERION scenario1
    scenario1Result (by with_unfolding_all decide) (0, 0, 2, 4) (by decide)

/-- C8 — Two-run determinism: the build is a pure function of the feature
matrix, targets, weights, configuration and the injected seeded random
source, so two builds from equal inputs and equal random-source states yield
identical finalized trees. -/
theorem build_deterministic_same_seed {ρ : Type}
    (shuffle : ρ → List Nat → List Nat × ρ) (g1 g2 : ρ) (log2f : ℚ → ℚ)
    (criterion : Nat) (p1 p2 : BuildParams) (hg : g1 = g2) (hp : p1 = p2) :
    _build_tree shuffle g1 log2f criterion p1 =
      _build_tree shuffle g2 log2f criterion p2 := by
  subst hg
  subst hp
  rfl

/-- Witness for C9: row 2 of `zwParams` has weight 0; it is excluded from the
sample set, and rewriting its feature value and target changes nothing. -/
theorem zero_weight_rows_inert_witness :
    ((0 : Nat) ∈ initSamples zwParams.n_samples zwParams.sample_weight ↔
      (0 < zwParams.n_samples ∧ 0 < zwParams.sample_weight 0)) ∧
    _build_tree noShuffle () id MSE_CRITERION zwParams =
      _build_tree noShuffle () id MSE_CRITERION
        { zwParams with X := zwX2, y := zwY2 } := by
  have h := zero_weight_rows_inert noShuffle () id MSE_CRITERION zwParams
    zwX2 zwY2
    (by
      intro i
      by_cases hc : i = 2 <;> simp [zwParams, hc])
    (by
      intro i hi hw j
      by_cases hc : i = 2
      · subst hc
        simp [zwParams] at hw
      · simp [zwX2, hc])
    (by
      intro i hi hw
      by_cases hc : i = 2
      · subst hc
        simp [zwParams] at hw
      · simp [zwY2, hc])
  exact ⟨h.1 0, h.2⟩

/-- A second, nontrivial random source, used to instantiate
rng-independence across different random-source types. -/
def revShuffle : Nat → List Nat → List Nat × Nat :=
  fun n l => (l.reverse, n + 1)

/-- Witness for C10: Scenario 1 resolves `max_features = n_features = 1`, so
two builds with entirely different random sources agree. -/
theorem build_rng_independent_without_subsampling_witness :
    _build_tree noShuffle () id MSE_CRITERION scenario1 =
      _build_tree revShuffle 0 id MSE_CRITERION scenario1 :=
  build_rng_independent_without_subsampling noShuffle () revShuffle 0 id
    MSE_CRITERION scenario1 rfl

/-- Witness for C8 at a concrete seed and input. -/
theorem build_deterministic_same_seed_witness :
    _build_tree noShuffle () id MSE_CRITERION scenario1 =
      _build_tree noShuffle () id MSE_CRITERION scenario1 :=
  build_deterministic_same_seed noShuffle () () id MSE_CRITERION
    scenario1 scenario1 rfl rfl

/-- One successful non-final loop iteration preserves the full build
invariant, dispatching on the three node-producing branches. -/
theorem bstep_BInv {ρ : Type} {shuffle : ρ → List Nat → List Nat × ρ}
    {impF : ImpurityFn} {pr : BuildParams} {st st2 : BuildState ρ}
    (hI : BInv pr st) (h : buildStep shuffle impF pr st = some (.inl st2)) :
    BInv pr st2 := by
  obtain ⟨E, rest, t1, hstk, hpatch, hbr⟩ := buildStep_inl_cases h
  have hmemE : E ∈ st.stack := hstk ▸ List.mem_cons_self E rest
  have hE := hI.stackRange E hmemE
  rcases hbr with ⟨_, t2, hadd, rfl⟩ | ⟨_, fr, hfr, bs, hbs, hrest⟩
  · exact bstep_BInv_terminal hI hstk hpatch hadd rfl (fun p _ => rfl)
      (List.Perm.refl _)
  · have hsp := best_split_spec impF pr.X st.samples
      (fr.1.take pr.max_features) E.start E.end_ pr.min_samples_leaf
      hE.1 hE.2
    rw [← hbs] at hsp
    obtain ⟨hlen, hout, hperm, hbest⟩ := hsp
    rcases hrest with ⟨hjm1, t2, hadd, rfl⟩ | ⟨hj, t2, hadd, _, _, rfl⟩
    · exact bstep_BInv_terminal hI hstk hpatch hadd hlen hout hperm
    · rcases hbest with ⟨hc, _⟩ | ⟨jN, posN, hjj, hpos, h1, h2, h3, h4, hrL, hrR⟩
      · exact absurd hc hj
      have hposn : bs.2.best_pos_t.toNat = posN := by
        rw [hpos]
        simp
      rw [hjj] at hadd
      rw [hposn]
      refine bstep_BInv_split hI hstk hpatch hadd hlen hout hperm h1 h2 ?_ ?_
      · intro i hi
        rcases mem_slice_iff.mp hi with ⟨q, hq, hget⟩
        exact hrL (E.start + q) i (by omega) (by omega) hget
      · intro i hi
        rcases mem_slice_iff.mp hi with ⟨q, hq, hget⟩
        exact not_le.mpr (hrR (posN + q) i (by omega) (by omega) hget)

/-- C5 — Every training row routed into a leaf during building is routed
back to that same leaf by the predictor: for every completed build, every
recorded leaf `(ℓ, s, e)` and every position `p` of its final sample range
`[s, e)`, the sample index stored at `p` exists and running `_apply` on that
row's feature vector over the finalized arrays reaches node `ℓ`. -/
theorem build_leaves_self_consistent {ρ : Type}
    (shuffle : ρ → List Nat → List Nat × ρ) (rng0 : ρ) (log2f : ℚ → ℚ)
    (criterion : Nat) (pr : BuildParams) (res : BuildResult)
    (h : _build_tree shuffle rng0 log2f criterion pr = some res) :
    ∀ q ∈ res.leaves, ∀ p, q.2.1 ≤ p → p < q.2.2 →
      ∃ i, res.samples[p]? = some i ∧
        _apply res.feature res.threshold res.children_left res.children_right
          (fun j => pr.X i j) = some q.1 := by
  unfold _build_tree at h
  dsimp only at h
  split at h
  · cases h
  · rename_i stF hloop
    have hinv := buildLoop_inv shuffle _ pr (BInv pr)
      (fun a b hPa hab => bstep_BInv hPa hab) _ _ _ hloop (BInv_init rng0 pr)
    obtain ⟨hB, hstk⟩ := hinv
    simp only [Option.some.injEq] at h
    rw [← h]
    dsimp only
    intro q hq p hps hpe
    have hlq := hB.leafRange q hq
    have hiq := hB.leafIds q hq
    have hplen : p < stF.samples.length := by omega
    have hsome : stF.samples[p]? = some (stF.samples.getD p 0) :=
      getElem?_eq_some_getD _ _ _ hplen
    refine ⟨stF.samples.getD p 0, hsome, ?_⟩
    have hmem : stF.samples.getD p 0 ∈ slice stF.samples q.2.1 q.2.2 :=
      mem_slice_iff.mpr ⟨p - q.2.1, by omega, by
        rw [show q.2.1 + (p - q.2.1) = p from by omega]
        exact hsome⟩
    have har := hB.leavesGood q hq _ hmem
    have hpos : 0 < stF.tree.ptr := by
      by_cases hz : stF.node_t = 0
      · obtain ⟨_, _, E2, hsing⟩ := hB.rootPhase hz
        rw [hstk] at hsing
        simp at hsing
      · have := hB.nodeEq
        omega
    have hfull : ∀ n (m : Nat), crAt stF.tree n = (m : Int) → 0 < m →
        clAt stF.tree n ≠ TREE_LEAF := by
      intro n m hcr hm hcl
      have hb := slotsOrd_pos (b := false) hB.slotsOrd hcr hm
      rcases hB.pending n true (by omega) hcl with ⟨q2, hq2, hq2n⟩ |
        ⟨F, hF, _⟩
      · have hthis := (hB.leafIds q2 hq2).2.2
        rw [hq2n] at hthis
        rw [hcr] at hthis
        unfold TREE_LEAF at hthis
        omega
      · rw [hstk] at hF
        exact absurd hF (List.not_mem_nil F)
    have hflen : stF.tree.finalize.children_left.length =
        min (stF.tree.ptr + 1) stF.tree.capacity := by
      show (stF.tree.children_left.take (stF.tree.ptr + 1)).length = _
      rw [List.length_take, hB.lenCl]
    have happ := arrives_applyFrom hB.slotsOrd hB.lenTh hB.lenFt hB.lenCl
      hB.lenCr hB.ptrCap hfull 0 q.1 har hpos hiq.2.1
      (stF.tree.finalize.children_left.length + 1)
      (by rw [hflen]; have := hB.ptrCap; have := hiq.1; omega)
    exact happ

/-- Witness for C5: in the Scenario 1 build, position 0 of leaf node 6's
final range holds a training row, and predicting that row descends back to
node 6. -/
theorem build_leaves_self_consistent_witness :
    ∃ i, scenario1Result.samples[0]? = some i ∧
      _apply scenario1Result.feature scenario1Result.threshold
        scenario1Result.children_left scenario1Result.children_right
        (fun j => scenario1.X i j) = some 6 :=
  build_leaves_self_consistent noShuffle () id MSE_CRITERION scenario1
    scenario1Result (by with_unfolding_all decide) (6, 0, 1) (by decide) 0
    (by decide) (by decide)

end Ivalice
